import Mathlib

/-!
# Verification of the clinical-decision-support pipeline core

A shallow embedding, in Lean, of the core algorithms of the
`clinical-decision-support-agent` backend:

* `app/services/medgemma.py` — JSON extraction (`_extract_json`),
  truncated-JSON repair (`_repair_truncated_json`), the structured-output
  retry loop (`generate_structured`) and the API retry/backoff loop
  (`_generate_api`);
* `app/agent/orchestrator.py` — the step pipeline (`Orchestrator.run`,
  `_run_step`, `_mark_running`, `_skip_remaining_steps`);
* `tracks/iterative/refiner.py` — the self-critique refinement loop
  (`IterativeRefiner.refine`, `_has_converged`);
* `tracks/arbitrated/arbiter.py` — arbiter feedback selection
  (`Arbiter.generate_feedback`).

Text is modelled as `List Char`; the external model endpoint, the JSON
schema validator and the step tool calls are abstracted as function
parameters, exactly the points where the Python code calls out of the
analysed modules.  `json.loads` / `json.dumps` (Python standard library)
are modelled by an executable JSON parser and serializer over an
inductive `Json` type restricted to integer numerals and to the escape
sequences (`\"`, `\\`) that the serializer emits.
-/

namespace CDS

/-! ## Character and string helpers (Python `str` methods) -/

/-- Whitespace for Python's `str.strip` / `str.rstrip`. -/
def pyWs (c : Char) : Bool :=
  c = ' ' ∨ c = '\t' ∨ c = '\n' ∨ c = '\r' ∨ c = '\x0b' ∨ c = '\x0c'

/-- JSON whitespace skipped by `json.loads`. -/
def jsonWs (c : Char) : Bool :=
  c = ' ' ∨ c = '\t' ∨ c = '\n' ∨ c = '\r'

/-- Python `str.rstrip()`. -/
def rstrip (s : List Char) : List Char :=
  (s.reverse.dropWhile pyWs).reverse

/-- Python `str.lstrip()`. -/
def lstrip (s : List Char) : List Char :=
  s.dropWhile pyWs

/-- Python `str.strip()`. -/
def pyStrip (s : List Char) : List Char :=
  rstrip (lstrip s)

/-- Does `needle` occur as a prefix of `hay`? (`List.isPrefixOf`) -/
def isPrefixL (needle hay : List Char) : Bool :=
  match needle, hay with
  | [], _ => true
  | _ :: _, [] => false
  | n :: ns, h :: hs => n = h && isPrefixL ns hs

/-- Index of the first occurrence of `needle` in `hay`
(Python `str.find` / `in`). -/
def idxOfSub (needle hay : List Char) : Option Nat :=
  match hay with
  | [] => if isPrefixL needle [] then some 0 else none
  | _ :: hs =>
    if isPrefixL needle hay then some 0
    else (idxOfSub needle hs).map (· + 1)

/-- Python `needle in hay` for strings. -/
def containsSub (needle hay : List Char) : Bool :=
  (idxOfSub needle hay).isSome

/-! ## Escape-aware string scanning

`_repair_truncated_json` runs two index-based loops over the candidate
string, both tracking an `in_string` flag, with `i += 2` to jump over an
escaped character (`if c == '\\' and in_string: i += 2`).  We embed the
loops literally (`qscanLoop`, `bscanLoop`) and also as a three-state
character automaton folded over the text (`QState`, compositional under
`++`), and prove the two presentations equivalent. -/

/-- Scanner state: outside a string, inside a string, or inside a string
right after a backslash (the character the Python loop jumps over). -/
inductive QState where
  | out
  | inStr
  | esc
deriving DecidableEq, Repr

/-- One character of the quote scan in `_repair_truncated_json`. -/
def qstep : QState → Char → QState
  | .esc, _ => .inStr
  | .inStr, '\\' => .esc
  | .inStr, '"' => .out
  | .out, '"' => .inStr
  | st, _ => st

/-- Quote scan as a fold. -/
def qstate (st : QState) (s : List Char) : QState :=
  s.foldl qstep st

/-- The first `while` loop of `_repair_truncated_json`, literally:
`in_string` after scanning `s`, where a backslash inside a string skips
the following character. -/
def qscanLoop : Bool → List Char → Bool
  | inS, [] => inS
  | true, '\\' :: [] => true
  | true, '\\' :: _ :: cs => qscanLoop true cs
  | inS, '"' :: cs => qscanLoop (!inS) cs
  | inS, _ :: cs => qscanLoop inS cs

/-- `in_string` ↔ automaton not in `out`-state. -/
def stOf : Bool → QState
  | true => .inStr
  | false => .out

@[simp] theorem qscanLoop_nil (b : Bool) : qscanLoop b [] = b := by
  cases b <;> rfl

@[simp] theorem qscanLoop_esc_nil : qscanLoop true ['\\'] = true := rfl

@[simp] theorem qscanLoop_esc (c : Char) (cs : List Char) :
    qscanLoop true ('\\' :: c :: cs) = qscanLoop true cs := rfl

@[simp] theorem qscanLoop_quote (b : Bool) (cs : List Char) :
    qscanLoop b ('"' :: cs) = qscanLoop (!b) cs := by
  cases b <;> simp [qscanLoop]

/-! ### Bracket-stack scan -/

/-- One character of the bracket scan in `_repair_truncated_json`:
string state plus the stack of expected closers (head = innermost). -/
def bstep : QState × List Char → Char → QState × List Char
  | (.esc, st), _ => (.inStr, st)
  | (.inStr, st), '\\' => (.esc, st)
  | (.inStr, st), '"' => (.out, st)
  | (.inStr, st), _ => (.inStr, st)
  | (.out, st), '"' => (.inStr, st)
  | (.out, st), '{' => (.out, '}' :: st)
  | (.out, st), '[' => (.out, ']' :: st)
  | (.out, st), '}' => (.out, st.tail)
  | (.out, st), ']' => (.out, st.tail)
  | (.out, st), _ => (.out, st)

/-- Bracket scan as a fold. -/
def bfold (p : QState × List Char) (s : List Char) : QState × List Char :=
  s.foldl bstep p

/-- The second `while` loop of `_repair_truncated_json`, literally:
final closer stack after scanning `s` (escaped characters jumped,
brackets inside strings ignored, pop only on a non-empty stack). -/
def bscanLoop : Bool → List Char → List Char → List Char
  | _, st, [] => st
  | true, st, '\\' :: [] => st
  | true, st, '\\' :: _ :: cs => bscanLoop true st cs
  | inS, st, '"' :: cs => bscanLoop (!inS) st cs
  | false, st, '{' :: cs => bscanLoop false ('}' :: st) cs
  | false, st, '[' :: cs => bscanLoop false (']' :: st) cs
  | false, st, '}' :: cs => bscanLoop false st.tail cs
  | false, st, ']' :: cs => bscanLoop false st.tail cs
  | inS, st, _ :: cs => bscanLoop inS st cs

@[simp] theorem bfold_nil (p : QState × List Char) : bfold p [] = p := rfl

@[simp] theorem bfold_cons (p : QState × List Char) (c : Char) (cs : List Char) :
    bfold p (c :: cs) = bfold (bstep p c) cs := rfl

/-! ### `MedGemmaService._repair_truncated_json` -/

/-- `_repair_truncated_json`: close an unterminated string literal, strip
one trailing comma, append missing closers in reverse push order.
Returns `none` when the input is empty or whitespace-only. -/
def repairTruncatedJson (text : List Char) : Option (List Char) :=
  if text = [] ∨ pyStrip text = [] then none
  else
    let s0 := rstrip text
    let s1 := if qscanLoop false s0 then s0 ++ ['"'] else s0
    let stack := bscanLoop false [] s1
    let s2 := rstrip s1
    let s3 := if s2.getLast? = some ',' then s2.dropLast else s2
    some (s3 ++ stack)

/-- Number of unescaped quote characters seen by the scan (quotes that the
escape-aware loop actually processes, rather than jumps over). -/
def countQ : QState → List Char → Nat
  | _, [] => 0
  | st, c :: cs =>
    (if st ≠ .esc ∧ c = '"' then 1 else 0) + countQ (qstep st c) cs

/-- `outB st` = "the scanner is outside any string". -/
def outB : QState → Bool
  | .out => true
  | _ => false

/-! ## `MedGemmaService._extract_json` -/

/-- Depth contribution of one character in the raw-JSON scan:
`{`/`[` increment, `}`/`]` decrement, everything else — including
quotes — contributes nothing. -/
def bracketDelta (c : Char) : Int :=
  if c = '{' ∨ c = '[' then 1 else if c = '}' ∨ c = ']' then -1 else 0

/-- The inner loop of the raw-JSON scan: depth after each character
(**no** quote handling), returning the length of the prefix at which
depth returns to zero. -/
def depthScan : List Char → Int → Nat → Option Nat
  | [], _, _ => none
  | c :: rest, d, k =>
    let d' := d + bracketDelta c
    if d' = 0 then some (k + 1) else depthScan rest d' (k + 1)

/-- The outer loop of the raw-JSON scan: at each opening bracket, run the
depth scan over the remaining text; return the first completed span. -/
def findSpan : List Char → Option (List Char)
  | [] => none
  | c :: rest =>
    if c = '{' ∨ c = '[' then
      match depthScan (c :: rest) 0 0 with
      | some len => some ((c :: rest).take len)
      | none => findSpan rest
    else findSpan rest

/-- `_extract_json`: prefer a ```` ```json ```` fenced block, then any
fenced block (taking everything after an unclosed fence), then the first
span found by the raw bracket-depth scan, else the stripped text. -/
def extractJson (text : List Char) : List Char :=
  match idxOfSub "```json".toList text with
  | some i =>
    let after := text.drop (i + 7)
    match idxOfSub "```".toList after with
    | none => pyStrip after
    | some e => pyStrip (after.take e)
  | none =>
  match idxOfSub "```".toList text with
  | some i =>
    let after := text.drop (i + 3)
    match idxOfSub "```".toList after with
    | none => pyStrip after
    | some e => pyStrip (after.take e)
  | none =>
    match findSpan text with
    | some s => s
    | none => pyStrip text

/-! ## A JSON value model (`json.loads` / `json.dumps`)

The Python code round-trips model output through the standard library's
`json` module.  We model JSON values with integer numerals and strings
over the escape alphabet the serializer emits (`\"` and `\\`); the
serializer uses compact separators and the parser skips JSON whitespace
around tokens, accepting a superset of what the serializer produces. -/

inductive Json where
  | null
  | bool (b : Bool)
  | num (n : Int)
  | str (s : List Char)
  | arr (elems : List Json)
  | obj (members : List (List Char × Json))

def digitChar (d : Nat) : Char := Char.ofNat (48 + d)

def natToCharsGo (n : Nat) (acc : List Char) : List Char :=
  if h : n < 10 then digitChar n :: acc
  else natToCharsGo (n / 10) (digitChar (n % 10) :: acc)
termination_by n
decreasing_by exact Nat.div_lt_self (by omega) (by omega)

/-- Decimal digits of `n`, most significant first. -/
def digitsOf (n : Nat) : List Char := natToCharsGo n []

/-- Serialization of a JSON integer. -/
def intChars (n : Int) : List Char :=
  if n < 0 then '-' :: digitsOf n.natAbs else digitsOf n.toNat

/-- JSON string escaping (the sequences `json.dumps` emits for the
characters that must be escaped). -/
def escChar (c : Char) : List Char :=
  if c = '"' ∨ c = '\\' then ['\\', c] else [c]

def escStr (s : List Char) : List Char := (s.map escChar).flatten

mutual

/-- `json.dumps` with compact separators. -/
def serialize : Json → List Char
  | .null => "null".toList
  | .bool b => if b then "true".toList else "false".toList
  | .num n => intChars n
  | .str s => '"' :: escStr s ++ ['"']
  | .arr l => '[' :: serializeElems l ++ [']']
  | .obj m => '{' :: serializeMembers m ++ ['}']

def serializeElems : List Json → List Char
  | [] => []
  | [x] => serialize x
  | x :: xs => serialize x ++ ',' :: serializeElems xs

def serializeMembers : List (List Char × Json) → List Char
  | [] => []
  | [(k, v)] => '"' :: escStr k ++ '"' :: ':' :: serialize v
  | (k, v) :: xs =>
    ('"' :: escStr k ++ '"' :: ':' :: serialize v) ++ ',' :: serializeMembers xs

end

/-! ### The parser (`json.loads`) -/

def skipWs (s : List Char) : List Char := s.dropWhile jsonWs

def digitVal (c : Char) : Nat := c.toNat - 48

/-- Consume a maximal run of digits, accumulating their value. -/
def parseDigitsAux : List Char → Nat → Nat × List Char
  | [], acc => (acc, [])
  | c :: cs, acc =>
    if c.isDigit then parseDigitsAux cs (10 * acc + digitVal c) else (acc, c :: cs)

/-- Body of a string literal after the opening quote, up to and including
the closing quote. -/
def parseStringBody : List Char → Option (List Char × List Char)
  | [] => none
  | '"' :: rest => some ([], rest)
  | '\\' :: [] => none
  | '\\' :: c :: rest =>
    if c = '"' ∨ c = '\\' then
      (parseStringBody rest).map (fun p => (c :: p.1, p.2))
    else none
  | c :: rest => (parseStringBody rest).map (fun p => (c :: p.1, p.2))

mutual

/-- Parse one JSON value; `fuel` bounds the nesting of recursive calls. -/
def parseVal : Nat → List Char → Option (Json × List Char)
  | 0, _ => none
  | fuel + 1, s =>
    match skipWs s with
    | 'n' :: 'u' :: 'l' :: 'l' :: rest => some (.null, rest)
    | 't' :: 'r' :: 'u' :: 'e' :: rest => some (.bool true, rest)
    | 'f' :: 'a' :: 'l' :: 's' :: 'e' :: rest => some (.bool false, rest)
    | '"' :: rest => (parseStringBody rest).map (fun p => (.str p.1, p.2))
    | '[' :: rest =>
      (match skipWs rest with
       | ']' :: rest' => some (.arr [], rest')
       | _ => (parseElems fuel rest).map (fun p => (.arr p.1, p.2)))
    | '{' :: rest =>
      (match skipWs rest with
       | '}' :: rest' => some (.obj [], rest')
       | _ => (parseMembers fuel rest).map (fun p => (.obj p.1, p.2)))
    | '-' :: rest =>
      (match rest with
       | c :: _ =>
         if c.isDigit then
           let p := parseDigitsAux rest 0
           some (.num (-(p.1 : Int)), p.2)
         else none
       | [] => none)
    | c :: rest' =>
      if c.isDigit then
        let p := parseDigitsAux (c :: rest') 0
        some (.num (p.1 : Int), p.2)
      else none
    | [] => none

/-- Parse `value (',' value)* ']'` inside a non-empty array. -/
def parseElems : Nat → List Char → Option (List Json × List Char)
  | 0, _ => none
  | fuel + 1, s =>
    match parseVal fuel s with
    | none => none
    | some (j, rest) =>
      match skipWs rest with
      | ',' :: rest' => (parseElems fuel rest').map (fun p => (j :: p.1, p.2))
      | ']' :: rest' => some ([j], rest')
      | _ => none

/-- Parse `pair (',' pair)* '}'` inside a non-empty object. -/
def parseMembers : Nat → List Char → Option (List (List Char × Json) × List Char)
  | 0, _ => none
  | fuel + 1, s =>
    match skipWs s with
    | '"' :: rest =>
      (match parseStringBody rest with
       | none => none
       | some (k, rest1) =>
         match skipWs rest1 with
         | ':' :: rest2 =>
           (match parseVal fuel rest2 with
            | none => none
            | some (v, rest3) =>
              match skipWs rest3 with
              | ',' :: rest4 => (parseMembers fuel rest4).map (fun p => ((k, v) :: p.1, p.2))
              | '}' :: rest4 => some ([(k, v)], rest4)
              | _ => none)
         | _ => none)
    | _ => none

end

/-- `json.loads`: the whole input must be one JSON value surrounded only
by whitespace. -/
def parseJson (s : List Char) : Option Json :=
  match parseVal (s.length + 1) s with
  | some (j, rest) => if skipWs rest = [] then some j else none
  | none => none

/-! ## `MedGemmaService.generate_structured`

The schema validator (`response_model.model_validate`) is abstracted as a
predicate `validate : Json → Bool`, and the raw text produced by
`self.generate(...)` on round `i` as `gen i` (the prompt is identical on
both rounds, but the endpoint may answer differently). -/

/-- The exception captured in `last_error`: a parse failure
(`json.JSONDecodeError`) or a schema-validation failure, tagged with the
candidate that produced it. -/
inductive SGError where
  | parseError (candidate : List Char)
  | validationError (candidate : List Char)
deriving DecidableEq, Repr

/-- `json.loads(candidate)` followed by `model_validate(data)`. -/
def parseValidate (validate : Json → Bool) (c : List Char) : Except SGError Json :=
  match parseJson c with
  | none => .error (.parseError c)
  | some j => if validate j then .ok j else .error (.validationError c)

/-- The candidate tuple `(json_str, _repair_truncated_json(json_str))` of
one round, with a `None` repair skipped. -/
def roundCandidates (raw : List Char) : List (List Char) :=
  let js := extractJson raw
  js :: (match repairTruncatedJson js with
         | some r => [r]
         | none => [])

/-- The inner `for candidate in (...)` loop: first parsed-and-validated
candidate wins, `last_error` updated on each failure. -/
def tryRound (validate : Json → Bool) :
    List (List Char) → Option SGError → Option Json × Option SGError
  | [], lastErr => (none, lastErr)
  | c :: cs, lastErr =>
    match parseValidate validate c with
    | .ok j => (some j, lastErr)
    | .error e => tryRound validate cs (some e)

structure SGResult where
  result : Except (Option SGError) Json
  roundsUsed : Nat

/-- `generate_structured`: two rounds, each trying the extracted JSON
then its repair; failure after both rounds raises with `last_error`. -/
def generateStructured (gen : Nat → List Char) (validate : Json → Bool) : SGResult :=
  match tryRound validate (roundCandidates (gen 0)) none with
  | (some j, _) => ⟨.ok j, 1⟩
  | (none, e0) =>
    match tryRound validate (roundCandidates (gen 1)) e0 with
    | (some j, _) => ⟨.ok j, 2⟩
    | (none, e1) => ⟨.error e1, 2⟩

/-- Specification-side observer: the first candidate in the given order
that both parses and validates. -/
def firstValid (validate : Json → Bool) (cands : List (List Char)) : Option Json :=
  cands.findSome? (fun c =>
    match parseValidate validate c with
    | .ok j => some j
    | .error _ => none)

/-- Specification-side observer: the error a failing candidate records. -/
def errOf (validate : Json → Bool) (c : List Char) : Option SGError :=
  match parseValidate validate c with
  | .error e => some e
  | .ok _ => none

/-! ## `MedGemmaService._generate_api`

The endpoint is abstracted as `ep : Nat → ApiResult` giving the result of
the `n`-th HTTP request of this call (the system-role fallback request
consumes the next index).  `sys` is the truthiness of `system_prompt`.
Backoff delays are in exact seconds (`RETRY_BASE_DELAY = 5.0`). -/

inductive ApiResult where
  | success (text : List Char)
  | failure (msg : List Char)

def MAX_API_RETRIES : Nat := 3

def RETRY_BASE_DELAY : Nat := 5

def lowerL (s : List Char) : List Char := s.map Char.toLower

/-- The transient-error keyword list of `_generate_api`. -/
def transientKeywords : List (List Char) :=
  ["503", "502", "429", "service unavailable", "overloaded",
   "connection", "timeout", "timed out", "temporarily"].map String.toList

/-- `any(keyword in error_str for keyword in ...)` over the lowercased
message. -/
def isTransient (msg : List Char) : Bool :=
  transientKeywords.any (fun k => containsSub k (lowerL msg))

/-- `"system" in error_str` over the lowercased message. -/
def mentionsSystem (msg : List Char) : Bool :=
  containsSub "system".toList (lowerL msg)

structure GenResult where
  outcome : Except (List Char) (List Char)
  calls : Nat
  attemptsUsed : Nat
  delays : List Nat
deriving Repr

/-- The `for attempt in range(MAX_API_RETRIES)` loop of `_generate_api`.
`fuel` is the number of loop iterations left (`MAX_API_RETRIES - attempt`),
`ci` the next request index, `ds` the sleeps performed so far and
`lastErr` the current `last_error`. -/
def genLoop (sys : Bool) (ep : Nat → ApiResult) :
    Nat → Nat → Nat → List Nat → List Char → GenResult
  | 0, attempt, ci, ds, lastErr => ⟨.error lastErr, ci, attempt, ds⟩
  | fuel + 1, attempt, ci, ds, _ =>
    match ep ci with
    | .success t => ⟨.ok t, ci + 1, attempt + 1, ds⟩
    | .failure msg =>
      if sys ∧ mentionsSystem msg then
        -- system-role rejection: one immediate fallback request,
        -- folding the system prompt into the user message
        match ep (ci + 1) with
        | .success t => ⟨.ok t, ci + 2, attempt + 1, ds⟩
        | .failure m2 =>
          if isTransient m2 ∧ attempt < MAX_API_RETRIES - 1 then
            genLoop sys ep fuel (attempt + 1) (ci + 2)
              (ds ++ [RETRY_BASE_DELAY * 2 ^ attempt]) m2
          else ⟨.error m2, ci + 2, attempt + 1, ds⟩
      else
        if isTransient msg ∧ attempt < MAX_API_RETRIES - 1 then
          genLoop sys ep fuel (attempt + 1) (ci + 1)
            (ds ++ [RETRY_BASE_DELAY * 2 ^ attempt]) msg
        else ⟨.error msg, ci + 1, attempt + 1, ds⟩

/-- `_generate_api` in API mode. -/
def generateApi (sys : Bool) (ep : Nat → ApiResult) : GenResult :=
  genLoop sys ep MAX_API_RETRIES 0 0 [] []

/-! ## `Orchestrator` (`app/agent/orchestrator.py`)

Step tool calls are abstracted as `outcome : String -> Except String Unit`
(the step implementation either returns or raises with a message) and the
measured wall time of a step as `dur : String -> Nat` (milliseconds).
The summary fields written by the step implementations are not modelled;
the claims under verification concern statuses, errors and durations.
`log` records every status assignment in program order. -/

inductive AgentStepStatus where
  | pending
  | running
  | completed
  | failed
  | skipped
deriving DecidableEq, Repr

structure AgentStep where
  step_id : String
  step_name : String
  tool_name : Option String := none
  status : AgentStepStatus := .pending
  input_summary : Option String := none
  output_summary : Option String := none
  duration_ms : Option Nat := none
  error : Option String := none
deriving DecidableEq, Repr

/-- `Orchestrator._create_steps`. -/
def createSteps (includeDrugCheck includeGuidelines : Bool) : List AgentStep :=
  [⟨"parse", "Parsing Patient Data", some "patient_parser", .pending, none, none, none, none⟩,
   ⟨"reason", "Clinical Reasoning", some "clinical_reasoning", .pending, none, none, none, none⟩]
  ++ (if includeDrugCheck then
        [⟨"drugs", "Drug Interaction Check", some "drug_interactions", .pending, none, none, none, none⟩]
      else [])
  ++ (if includeGuidelines then
        [⟨"guidelines", "Guideline Retrieval", some "guideline_retrieval", .pending, none, none, none, none⟩]
      else [])
  ++ (if includeGuidelines then
        [⟨"conflicts", "Conflict Detection", some "conflict_detection", .pending, none, none, none, none⟩]
      else [])
  ++ [⟨"synthesize", "Synthesizing Report", some "synthesis", .pending, none, none, none, none⟩]

structure RunState where
  steps : List AgentStep
  log : List (String × AgentStepStatus)
deriving Repr

/-- `Orchestrator._mark_running`. -/
def markRunning (rs : RunState) (id : String) : RunState :=
  { steps := rs.steps.map (fun s =>
      if s.step_id = id then { s with status := .running } else s),
    log := rs.log ++ [(id, .running)] }

/-- `Orchestrator._run_step` applied to one step record: set `RUNNING`,
execute, catch any exception into `FAILED`/`error`, always set
`duration_ms`. -/
def runStepCore (step : AgentStep) (outcome : Except String Unit) (dur : Nat) : AgentStep :=
  let step := { step with status := AgentStepStatus.running }
  match outcome with
  | .ok _ => { step with status := .completed, duration_ms := some dur }
  | .error msg => { step with status := .failed, error := some msg, duration_ms := some dur }

/-- `Orchestrator._run_step` acting on the run state. -/
def runStepM (rs : RunState) (id : String) (outcome : Except String Unit) (dur : Nat) : RunState :=
  let term : AgentStepStatus := match outcome with
    | .ok _ => .completed
    | .error _ => .failed
  { steps := rs.steps.map (fun s =>
      if s.step_id = id then runStepCore s outcome dur else s),
    log := rs.log ++ [(id, .running), (id, term)] }

/-- `Orchestrator._skip_remaining_steps`: walk the ordered step list, and
after passing `afterId` mark every still-`PENDING` step `SKIPPED` with an
error naming the failed prerequisite.  Also returns the log entries. -/
def skipGo (afterId : String) : Bool → List AgentStep →
    List AgentStep × List (String × AgentStepStatus)
  | _, [] => ([], [])
  | found, s :: ss =>
    if s.step_id = afterId then
      let (ss', lg) := skipGo afterId true ss
      (s :: ss', lg)
    else if found ∧ s.status = .pending then
      let s' := { s with
        status := AgentStepStatus.skipped,
        error := some ("Skipped: prerequisite step '" ++ afterId ++ "' failed") }
      let (ss', lg) := skipGo afterId found ss
      (s' :: ss', (s.step_id, .skipped) :: lg)
    else
      let (ss', lg) := skipGo afterId found ss
      (s :: ss', lg)

def skipRemaining (rs : RunState) (afterId : String) : RunState :=
  let (st, lg) := skipGo afterId false rs.steps
  { steps := st, log := rs.log ++ lg }

/-- `Orchestrator.run`: parse, reason (hard dependencies, skipping the
rest on failure), then the optional drug/guideline group (both marked
running before either executes), then conflicts, then synthesize.  The
`asyncio.gather` group is modelled sequentially: each `_run_step` is an
independent status/record update, and interleaving order is irrelevant
to any per-step observation. -/
def runPipeline (drug guide : Bool) (outcome : String → Except String Unit)
    (dur : String → Nat) : RunState :=
  let rs : RunState := ⟨createSteps drug guide, []⟩
  let rs := markRunning rs "parse"
  let rs := runStepM rs "parse" (outcome "parse") (dur "parse")
  match outcome "parse" with
  | .error _ => skipRemaining rs "parse"
  | .ok _ =>
    let rs := markRunning rs "reason"
    let rs := runStepM rs "reason" (outcome "reason") (dur "reason")
    match outcome "reason" with
    | .error _ => skipRemaining rs "reason"
    | .ok _ =>
      let rs := if drug then markRunning rs "drugs" else rs
      let rs := if guide then markRunning rs "guidelines" else rs
      let rs := if drug then runStepM rs "drugs" (outcome "drugs") (dur "drugs") else rs
      let rs := if guide then runStepM rs "guidelines" (outcome "guidelines") (dur "guidelines") else rs
      let rs := if guide then
          runStepM (markRunning rs "conflicts") "conflicts" (outcome "conflicts") (dur "conflicts")
        else rs
      let rs := markRunning rs "synthesize"
      runStepM rs "synthesize" (outcome "synthesize") (dur "synthesize")

/-- Statuses assigned to step `id` during the run, in order. -/
def assignments (rs : RunState) (id : String) : List AgentStepStatus :=
  (rs.log.filter (fun e => e.1 = id)).map (fun e => e.2)

/-- Collapse consecutive repeats (assigning `RUNNING` twice in a row is
one observed status). -/
def dedupConsec : List AgentStepStatus → List AgentStepStatus
  | [] => []
  | [a] => [a]
  | a :: b :: rest =>
    if a = b then dedupConsec (b :: rest) else a :: dedupConsec (b :: rest)

/-- The sequence of statuses step `id` takes on over the run: the initial
`PENDING` of construction followed by the de-duplicated assignments. -/
def takesOn (rs : RunState) (id : String) : List AgentStepStatus :=
  dedupConsec (.pending :: assignments rs id)

/-- Concrete outcome function for the C1 witness run: `parse` succeeds
and every other step raises. -/
def epC1 : String → Except String Unit :=
  fun id => if id = "parse" then .ok () else .error "MedGemma 500"

/-- The C1 witness run: both optional steps enabled, `reason` fails. -/
def rsC1 : RunState := runPipeline true true epC1 (fun _ => 3)

/-- The C2 witness run: both optional steps enabled, every step
succeeds. -/
def rsC2 : RunState := runPipeline true true (fun _ => .ok ()) (fun _ => 1)

/-! ## `IterativeRefiner` (`tracks/iterative/refiner.py`)

Only the candidate labels are read by the verified properties, so a
`DiagnosisCandidate` is modelled by its `diagnosis` field; likelihood,
evidence and prose fields are carried opaquely by the Python record and
never inspected by `refine`/`_has_converged`.  The structured-generation
call of iteration `i` is abstracted as `oracle i` (an exception is
`Except.error ()`), and the cost ledger, being append-only bookkeeping,
is not modelled. -/

structure DiagnosisCandidate where
  diagnosis : String
deriving DecidableEq, Repr

structure ClinicalReasoningResult where
  differential_diagnosis : List DiagnosisCandidate
deriving DecidableEq, Repr

structure IterativeConfig where
  max_iterations : Nat
  convergence_threshold : ℚ
deriving Repr

/-- `dx.diagnosis.lower().strip()` (Python's whitespace set). -/
def normLabel (s : String) : String :=
  (pyStrip (s.toList.map Char.toLower)).asString

/-- Top-`n` candidate-label set of an artifact. -/
def topLabels (n : Nat) (r : ClinicalReasoningResult) : Finset String :=
  ((r.differential_diagnosis.take n).map (fun dx => normLabel dx.diagnosis)).toFinset

/-- `IterativeRefiner._has_converged`: Jaccard similarity of the top-5
label sets, `False` when either set is empty. -/
def hasConverged (cfg : IterativeConfig) (prev curr : ClinicalReasoningResult) : Bool :=
  let pn := topLabels 5 prev
  let cn := topLabels 5 curr
  if pn = ∅ ∨ cn = ∅ then false
  else
    let overlap : ℚ := (pn ∩ cn).card
    let un : ℚ := (pn ∪ cn).card
    let jaccard : ℚ := if 0 < un then overlap / un else 0
    decide (1 - cfg.convergence_threshold ≤ jaccard)

/-- The `for iteration in range(1, max_iterations + 1)` loop of
`IterativeRefiner.refine`. -/
def refineLoop (cfg : IterativeConfig) (oracle : Nat → Except Unit ClinicalReasoningResult) :
    Nat → Nat → ClinicalReasoningResult → List ClinicalReasoningResult →
    ClinicalReasoningResult × List ClinicalReasoningResult
  | 0, _, current, history => (current, history)
  | fuel + 1, iteration, current, history =>
    match oracle iteration with
    | .error _ => (current, history)
    | .ok revised =>
      let history := history ++ [revised]
      if hasConverged cfg current revised then (revised, history)
      else refineLoop cfg oracle fuel (iteration + 1) revised history

/-- `IterativeRefiner.refine`. -/
def refine (cfg : IterativeConfig) (seed : ClinicalReasoningResult)
    (oracle : Nat → Except Unit ClinicalReasoningResult) :
    ClinicalReasoningResult × List ClinicalReasoningResult :=
  refineLoop cfg oracle cfg.max_iterations 1 seed [seed]

/-! ## `Arbiter.generate_feedback` (`tracks/arbitrated/arbiter.py`)

The feedback text produced by the arbiter's generation call for
specialist `sid` is abstracted as `fb sid`; specialist results are an
association list in Python dict iteration order. -/

structure SpecialistDef where
  name : String
deriving DecidableEq, Repr

def lookupA {α : Type} (sid : String) : List (String × α) → Option α
  | [] => none
  | (k, v) :: rest => if k = sid then some v else lookupA sid rest

/-- Overlap between the consensus top-3 label set and a specialist's. -/
def overlap3 (consensus result : ClinicalReasoningResult) : Nat :=
  (topLabels 3 consensus ∩ topLabels 3 result).card

/-- `Arbiter.generate_feedback`: skip specialists whose top-3 overlap
with the consensus top-3 is at least 2, and those without a definition;
the rest receive a generated feedback string. -/
def generateFeedback (consensus : ClinicalReasoningResult)
    (specialistResults : List (String × ClinicalReasoningResult))
    (specialistDefs : List (String × SpecialistDef))
    (fb : String → String) : List (String × String) :=
  match specialistResults with
  | [] => []
  | (sid, result) :: rest =>
    if 2 ≤ overlap3 consensus result then
      generateFeedback consensus rest specialistDefs fb
    else
      match lookupA sid specialistDefs with
      | none => generateFeedback consensus rest specialistDefs fb
      | some _ => (sid, fb sid) :: generateFeedback consensus rest specialistDefs fb

/-! # Claims -/

/-! ## C10 — `_run_step` catches every exception -/

/-- Example step record used to witness claim theorems. -/
def stepEx : AgentStep :=
  ⟨"parse", "Parsing Patient Data", some "patient_parser", .pending, none, none, none, none⟩

/-- Concrete artifacts for the C9 witness: the aligned cardiologist shares
two of the consensus top-3 labels, the misaligned neurologist none. -/
def crrConsensus : ClinicalReasoningResult :=
  ⟨[⟨"ACS"⟩, ⟨"PE"⟩, ⟨"Aortic dissection"⟩]⟩

def crrAligned : ClinicalReasoningResult :=
  ⟨[⟨"acs "⟩, ⟨"pe"⟩, ⟨"Pneumonia"⟩]⟩

def crrMisaligned : ClinicalReasoningResult :=
  ⟨[⟨"Migraine"⟩, ⟨"Stroke"⟩, ⟨"Seizure"⟩]⟩

/-- Specification-side stages of the repair, in the words of the claim. -/
def closeQuoteSpec (s : List Char) : List Char :=
  if Odd (countQ .out s) then s ++ ['"'] else s

/-- Closers of the brackets left unclosed by the quote- and escape-aware
stack scan, in reverse push order. -/
def unclosedSpec (s : List Char) : List Char :=
  (bfold (.out, []) s).2

def stripCommaSpec (s : List Char) : List Char :=
  if s.getLast? = some ',' then s.dropLast else s

def scenarioB : List Char := "\x7b\"a\": \"b\", \"c\": [1,2".toList

def scenarioBRepaired : List Char := "\x7b\"a\": \"b\", \"c\": [1,2]\x7d".toList

def scenarioBJson : Json :=
  .obj [("a".toList, .str "b".toList), ("c".toList, .arr [.num 1, .num 2])]

/-- Witness inputs for C4: round 0 returns an object accepted by the
always-true validator. -/
def genOkRound : Nat → List Char := fun _ => "\x7b\"a\": 1\x7d".toList

/-- Endpoint behavior of Scenario D: two transient failures, then
success. -/
def epScenarioD : Nat → ApiResult
  | 0 => .failure "503 Service Unavailable (cold start)".toList
  | 1 => .failure "Connection reset by peer".toList
  | _ => .success "answer".toList

/-- Endpoint that rejects the system role on the first request and
succeeds on the fallback. -/
def epSysReject : Nat → ApiResult
  | 0 => .failure "Developer instruction (role system) is not enabled".toList
  | _ => .success "ok".toList

/-! ## C2 — per-step status sequences -/

/-- The status sequences the claim P1 allows: a prefix of
`Pending, Running, {Completed|Failed|Skipped}`. -/
def claimP1Allows (h : List AgentStepStatus) : Prop :=
  h <+: [.pending, .running, .completed] ∨
  h <+: [.pending, .running, .failed] ∨
  h <+: [.pending, .running, .skipped]

/-! ## C8 — refinement loop termination and convergence -/

def emptyCRR : ClinicalReasoningResult := ⟨[]⟩

/-- Identical nonempty top-5 label sets between two artifacts. -/
def sameNonemptyTop5 (a b : ClinicalReasoningResult) : Prop :=
  topLabels 5 a = topLabels 5 b ∧ topLabels 5 a ≠ ∅

/-! ## C7 — `_extract_json` raw span scan -/

/-- Sum of bracket deltas over a string: the quote-blind depth change. -/
def sumDelta (s : List Char) : Int := (s.map bracketDelta).sum

/-- Reference scanner following the specification's words (not present in
the source): a raw-JSON depth scan that is quote-aware and respects
escape sequences, so brackets inside string literals do not change the
depth.  Used only to compare against the code's quote-blind scan. -/
def depthScanQuoteAware : List Char → QState → Int → Nat → Option Nat
  | [], _, _, _ => none
  | c :: rest, st, d, k =>
    let d' := if st = .out then d + bracketDelta c else d
    if d' = 0 then some (k + 1)
    else depthScanQuoteAware rest (qstep st c) d' (k + 1)

/-- Reference outer loop for the quote-aware scan: candidate spans start
at opening brackets outside string literals. -/
def findSpanQuoteAware : List Char → QState → Option (List Char)
  | [], _ => none
  | c :: rest, st =>
    if st = .out ∧ (c = '{' ∨ c = '[') then
      match depthScanQuoteAware (c :: rest) st 0 0 with
      | some len => some ((c :: rest).take len)
      | none => findSpanQuoteAware rest (qstep st c)
    else findSpanQuoteAware rest (qstep st c)

/-- The quote-aware variant of `_extract_json`'s raw branch described by
the specification. -/
def extractJsonQuoteAware (text : List Char) : List Char :=
  match findSpanQuoteAware text .out with
  | some s => s
  | none => pyStrip text

/-! Stage 5: the parser inverts the serializer. -/

mutual

/-- Fuel sufficient for `parseVal` on the serialization of a value. -/
def fsize : Json → Nat
  | .null => 1
  | .bool _ => 1
  | .num _ => 1
  | .str _ => 1
  | .arr l => 1 + fsizeElems l
  | .obj m => 1 + fsizeMembers m

def fsizeElems : List Json → Nat
  | [] => 0
  | x :: xs => 1 + max (fsize x) (fsizeElems xs)

def fsizeMembers : List (List Char × Json) → Nat
  | [] => 0
  | (_, v) :: xs => 1 + max (fsize v) (fsizeMembers xs)

end

/-- No leading digit: the continuation cannot extend a numeral. -/
def noDigitHead (rest : List Char) : Prop :=
  ∀ c, rest.head? = some c → c.isDigit = false

theorem qscanLoop_other (b : Bool) (c : Char) (cs : List Char)
    (hq : c ≠ '"') (hb : b = true → c ≠ '\\') :
    qscanLoop b (c :: cs) = qscanLoop b cs := by
  cases b with
  | false => simp [qscanLoop, hq]
  | true => simp [qscanLoop, hq, hb rfl]

@[simp] theorem qstep_esc (c : Char) : qstep .esc c = .inStr := rfl

theorem qstep_out (c : Char) (hq : c ≠ '"') : qstep .out c = .out := by
  unfold qstep
  split <;> simp_all

theorem qstep_inStr (c : Char) (hq : c ≠ '"') (hb : c ≠ '\\') :
    qstep .inStr c = .inStr := by
  unfold qstep
  split <;> simp_all

@[simp] theorem qstate_nil (st : QState) : qstate st [] = st := rfl

@[simp] theorem qstate_cons (st : QState) (c : Char) (cs : List Char) :
    qstate st (c :: cs) = qstate (qstep st c) cs := rfl

theorem qstate_append (st : QState) (xs ys : List Char) :
    qstate st (xs ++ ys) = qstate (qstate st xs) ys := by
  simp [qstate, List.foldl_append]

/-- The literal `while` loop of the quote scan computes the same
`in_string` flag as the three-state automaton. -/
theorem qscanLoop_eq_qstate (b : Bool) (s : List Char) :
    qscanLoop b s = decide (qstate (stOf b) s ≠ .out) := by
  induction b, s using qscanLoop.induct with
  | case1 inS => cases inS <;> simp [stOf]
  | case2 => simp [stOf, qstep]
  | case3 c cs ih => simpa [stOf, qstep] using ih
  | case4 inS cs ih =>
    cases inS <;> simpa [stOf, qstep] using ih
  | case5 inS c cs h1 h2 h3 ih =>
    have hq : c ≠ '"' := h3
    cases inS with
    | true =>
      have hc : c ≠ '\\' := by
        intro h
        cases cs with
        | nil => exact h1 rfl h rfl
        | cons a as => exact h2 a as rfl h rfl
      rw [qscanLoop_other true c cs hq (fun _ => hc), ih]
      simp [stOf, qstep_inStr c hq hc]
    | false =>
      rw [qscanLoop_other false c cs hq (by simp), ih]
      simp [stOf, qstep_out c hq]

theorem bfold_append (p : QState × List Char) (xs ys : List Char) :
    bfold p (xs ++ ys) = bfold (bfold p xs) ys := by
  simp [bfold, List.foldl_append]

theorem bstep_inStr_other (st : List Char) (c : Char)
    (hq : c ≠ '"') (hb : c ≠ '\\') : bstep (.inStr, st) c = (.inStr, st) := by
  unfold bstep
  split <;> simp_all

theorem bstep_out_other (st : List Char) (c : Char)
    (h : c ∉ ['"', '{', '[', '}', ']']) : bstep (.out, st) c = (.out, st) := by
  simp only [List.mem_cons, List.mem_singleton, not_or] at h
  obtain ⟨h1, h2, h3, h4, h5⟩ := h
  unfold bstep
  split <;> simp_all

/-- The literal bracket-scan loop computes the same stack as the automaton. -/
theorem bscanLoop_eq_bfold (b : Bool) (st s : List Char) :
    bscanLoop b st s = (bfold (stOf b, st) s).2 := by
  induction b, st, s using bscanLoop.induct with
  | case1 b st => cases b <;> simp [bscanLoop, stOf]
  | case2 st => simp [bscanLoop, stOf, bstep]
  | case3 st c cs ih => simpa [bscanLoop, stOf, bstep] using ih
  | case4 b st cs ih => cases b <;> simpa [bscanLoop, stOf, bstep] using ih
  | case5 st cs ih => simpa [bscanLoop, stOf, bstep] using ih
  | case6 st cs ih => simpa [bscanLoop, stOf, bstep] using ih
  | case7 st cs ih => simpa [bscanLoop, stOf, bstep] using ih
  | case8 st cs ih => simpa [bscanLoop, stOf, bstep] using ih
  | case9 b st c cs h1 h2 h3 h4 h5 h6 h7 ih =>
    have hq : c ≠ '"' := h3
    cases b with
    | true =>
      have hc : c ≠ '\\' := by
        intro h
        cases cs with
        | nil => exact h1 rfl h rfl
        | cons a as => exact h2 a as rfl h rfl
      rw [show bscanLoop true st (c :: cs) = bscanLoop true st cs by
            simp [bscanLoop, hq, hc]]
      rw [ih]
      simp [stOf, bstep_inStr_other st c hq hc]
    | false =>
      have h4' : c ≠ '{' := fun h => h4 rfl h
      have h5' : c ≠ '[' := fun h => h5 rfl h
      have h6' : c ≠ '}' := fun h => h6 rfl h
      have h7' : c ≠ ']' := fun h => h7 rfl h
      rw [show bscanLoop false st (c :: cs) = bscanLoop false st cs by
            simp [bscanLoop, hq, h4', h5', h6', h7']]
      rw [ih]
      simp [stOf, bstep_out_other st c (by simp [hq, h4', h5', h6', h7'])]

theorem outB_qstep_of_ne (st : QState) (c : Char)
    (h : c ≠ '"' ∨ st = .esc) : outB (qstep st c) = outB st := by
  cases st with
  | esc => simp [qstep, outB]
  | out =>
    have hc : c ≠ '"' := by
      rcases h with h | h
      · exact h
      · simp at h
    simp [qstep_out c hc, outB]
  | inStr =>
    have hc : c ≠ '"' := by
      rcases h with h | h
      · exact h
      · simp at h
    by_cases hb : c = '\\'
    · subst hb; simp [qstep, outB]
    · simp [qstep_inStr c hc hb, outB]

theorem outB_qstep_quote (st : QState) (h : st ≠ .esc) :
    outB (qstep st '"') = !outB st := by
  cases st <;> simp_all [qstep, outB]

/-- The scanner ends outside a string iff the number of unescaped quotes
processed has the same parity as it started with. -/
theorem outB_qstate_parity (s : List Char) : ∀ st : QState,
    outB (qstate st s) = (outB st == decide (countQ st s % 2 = 0)) := by
  induction s with
  | nil => intro st; cases st <;> simp [outB, countQ]
  | cons c cs ih =>
    intro st
    rw [qstate_cons]
    by_cases h : st ≠ .esc ∧ c = '"'
    · obtain ⟨hst, hc⟩ := h
      subst hc
      rw [ih]
      have : countQ st ('"' :: cs) = 1 + countQ (qstep st '"') cs := by
        simp [countQ, hst]
      rw [this, outB_qstep_quote st hst]
      rcases Nat.even_or_odd (countQ (qstep st '"') cs) with he | ho
      · have h0 : countQ (qstep st '"') cs % 2 = 0 := Nat.even_iff.mp he
        have h1 : (1 + countQ (qstep st '"') cs) % 2 = 1 := by omega
        cases hob : outB st <;> simp [h0, h1, hob]
      · have h0 : countQ (qstep st '"') cs % 2 = 1 := Nat.odd_iff.mp ho
        have h1 : (1 + countQ (qstep st '"') cs) % 2 = 0 := by omega
        cases hob : outB st <;> simp [h0, h1, hob]
    · have hcount : countQ st (c :: cs) = countQ (qstep st c) cs := by
        simp [countQ, h]
      have hsame : outB (qstep st c) = outB st := by
        apply outB_qstep_of_ne
        by_cases hst : st = .esc
        · exact Or.inr hst
        · left
          intro hc
          exact h ⟨hst, hc⟩
      rw [ih, hcount, hsame]

/-- **C10**: for every step function passed to `_run_step` — including one
that raises an arbitrary exception — `_run_step` never propagates the
exception (the embedding is a total function of the outcome): it returns
the step in a terminal status, `COMPLETED` on normal return or `FAILED`
with `error` set to the exception's message, and `duration_ms` is set on
every path. -/
theorem C10_runStep_total (step : AgentStep) (outcome : Except String Unit) (dur : Nat) :
    (runStepCore step outcome dur).duration_ms = some dur ∧
    ((runStepCore step outcome dur).status = .completed ∨
     (runStepCore step outcome dur).status = .failed) ∧
    (outcome = .ok () →
      (runStepCore step outcome dur).status = .completed ∧
      (runStepCore step outcome dur).error = step.error) ∧
    (∀ msg, outcome = .error msg →
      (runStepCore step outcome dur).status = .failed ∧
      (runStepCore step outcome dur).error = some msg) := by
  rcases outcome with msg | u
  · refine ⟨rfl, Or.inr rfl, ?_, ?_⟩
    · intro h
      cases h
    · intro m hm
      injection hm with h
      subst h
      exact ⟨rfl, rfl⟩
  · refine ⟨rfl, Or.inl rfl, ?_, ?_⟩
    · intro h
      exact ⟨rfl, rfl⟩
    · intro m hm
      cases hm

/-- Witness for C10 at a concrete failing step function. -/
theorem C10_runStep_total_witness :
    (runStepCore stepEx (.error "boom") 7).status = .failed ∧
    (runStepCore stepEx (.error "boom") 7).error = some "boom" :=
  (C10_runStep_total stepEx (.error "boom") 7).2.2.2 "boom" rfl

/-! ## C9 — arbiter feedback selectivity -/

/-- **C9**: a specialist whose top-3 labels overlap the consensus top-3
in at least 2 elements is skipped and never keyed in the feedback map; a
key can only belong to a specialist whose overlap is below 2. -/
theorem C9_feedback_selective (consensus : ClinicalReasoningResult)
    (results : List (String × ClinicalReasoningResult))
    (defs : List (String × SpecialistDef)) (fb : String → String)
    (hnd : (results.map Prod.fst).Nodup) :
    (∀ sid r, (sid, r) ∈ results → 2 ≤ overlap3 consensus r →
      sid ∉ (generateFeedback consensus results defs fb).map Prod.fst) ∧
    (∀ sid, sid ∈ (generateFeedback consensus results defs fb).map Prod.fst →
      ∃ r, (sid, r) ∈ results ∧ overlap3 consensus r < 2) := by
  induction results with
  | nil => exact ⟨by simp [generateFeedback], by simp [generateFeedback]⟩
  | cons hd rest ih =>
    obtain ⟨sid0, r0⟩ := hd
    simp only [List.map_cons, List.nodup_cons, List.mem_map] at hnd
    obtain ⟨hnotin, hndrest⟩ := hnd
    have ih' := ih hndrest
    constructor
    · intro sid r hmem hov
      rcases List.mem_cons.mp hmem with heq | htl
      · -- the head entry itself: it is skipped, and by key uniqueness it
        -- cannot re-enter through the tail
        injection heq with h1 h2
        subst h1
        subst h2
        have hskip : generateFeedback consensus ((sid, r) :: rest) defs fb =
            generateFeedback consensus rest defs fb := by
          simp [generateFeedback, hov]
        rw [hskip]
        intro hin
        obtain ⟨r', hr', _⟩ := ih'.2 sid hin
        exact hnotin ⟨(sid, r'), hr', rfl⟩
      · by_cases hov0 : 2 ≤ overlap3 consensus r0
        · rw [show generateFeedback consensus ((sid0, r0) :: rest) defs fb =
              generateFeedback consensus rest defs fb by simp [generateFeedback, hov0]]
          exact ih'.1 sid r htl hov
        · cases hlk : lookupA sid0 defs with
          | none =>
            rw [show generateFeedback consensus ((sid0, r0) :: rest) defs fb =
                generateFeedback consensus rest defs fb by
                  simp [generateFeedback, hov0, hlk]]
            exact ih'.1 sid r htl hov
          | some d =>
            rw [show generateFeedback consensus ((sid0, r0) :: rest) defs fb =
                (sid0, fb sid0) :: generateFeedback consensus rest defs fb by
                  simp [generateFeedback, hov0, hlk]]
            intro hin
            rcases List.mem_map.mp hin with ⟨e, he, hfst⟩
            rcases List.mem_cons.mp he with rfl | hetl
            · exact hnotin ⟨(sid, r), htl, hfst.symm⟩
            · exact ih'.1 sid r htl hov (List.mem_map.mpr ⟨e, hetl, hfst⟩)
    · intro sid hin
      by_cases hov0 : 2 ≤ overlap3 consensus r0
      · rw [show generateFeedback consensus ((sid0, r0) :: rest) defs fb =
            generateFeedback consensus rest defs fb by simp [generateFeedback, hov0]] at hin
        obtain ⟨r, hr, hlt⟩ := ih'.2 sid hin
        exact ⟨r, List.mem_cons_of_mem _ hr, hlt⟩
      · cases hlk : lookupA sid0 defs with
        | none =>
          rw [show generateFeedback consensus ((sid0, r0) :: rest) defs fb =
              generateFeedback consensus rest defs fb by
                simp [generateFeedback, hov0, hlk]] at hin
          obtain ⟨r, hr, hlt⟩ := ih'.2 sid hin
          exact ⟨r, List.mem_cons_of_mem _ hr, hlt⟩
        | some d =>
          rw [show generateFeedback consensus ((sid0, r0) :: rest) defs fb =
              (sid0, fb sid0) :: generateFeedback consensus rest defs fb by
                simp [generateFeedback, hov0, hlk]] at hin
          rcases List.mem_map.mp hin with ⟨e, he, hfst⟩
          rcases List.mem_cons.mp he with rfl | hetl
          · have hs : sid0 = sid := hfst
            subst hs
            exact ⟨r0, List.mem_cons_self _ _, by omega⟩
          · obtain ⟨r, hr, hlt⟩ := ih'.2 sid (List.mem_map.mpr ⟨e, hetl, hfst⟩)
            exact ⟨r, List.mem_cons_of_mem _ hr, hlt⟩

/-- Witness for C9: with one aligned and one misaligned specialist, the
aligned one is not keyed and the misaligned one is only keyed with
overlap below 2. -/
theorem C9_feedback_selective_witness :
    "cardio" ∉ (generateFeedback crrConsensus
        [("cardio", crrAligned), ("neuro", crrMisaligned)]
        [("cardio", ⟨"Cardiologist"⟩), ("neuro", ⟨"Neurologist"⟩)]
        (fun _ => "please reconsider")).map Prod.fst ∧
    (∃ r, ("neuro", r) ∈ [("cardio", crrAligned), ("neuro", crrMisaligned)] ∧
      overlap3 crrConsensus r < 2) := by
  have h := C9_feedback_selective crrConsensus
    [("cardio", crrAligned), ("neuro", crrMisaligned)]
    [("cardio", ⟨"Cardiologist"⟩), ("neuro", ⟨"Neurologist"⟩)]
    (fun _ => "please reconsider") (by decide)
  refine ⟨h.1 "cardio" crrAligned (by simp) (by decide), ?_⟩
  refine h.2 "neuro" ?_
  decide

/-! ## C5 — truncated-JSON repair -/

theorem decide_ne_out (st : QState) : decide (st ≠ .out) = !outB st := by
  cases st <;> simp [outB]

/-- The quote scan's final `in_string` flag, starting outside a string,
is exactly "the number of unescaped quotes is odd". -/
theorem qscanLoop_iff_odd (s : List Char) :
    qscanLoop false s = decide (Odd (countQ .out s)) := by
  rw [qscanLoop_eq_qstate]
  have hp : outB (qstate .out s) = decide (countQ .out s % 2 = 0) := by
    simpa [outB] using outB_qstate_parity s .out
  show decide (qstate (stOf false) s ≠ .out) = decide (Odd (countQ .out s))
  rw [show stOf false = .out from rfl, decide_ne_out, hp]
  by_cases hh : countQ .out s % 2 = 0
  · simp [hh, Nat.odd_iff]
  · simp [hh, Nat.odd_iff]
    omega

/-- **C5**: for every candidate string, `_repair_truncated_json` appends
one closing quote exactly when the count of unescaped quotes is odd, then
closes every bracket left unclosed by the quote- and escape-aware stack
scan in reverse order after stripping a single trailing comma; on the
truncated input `{"a": "b", "c": [1,2` the repair parses and is
semantically `{"a": "b", "c": [1, 2]}`. -/
theorem C5_repair (text : List Char) (h1 : text ≠ []) (h2 : pyStrip text ≠ []) :
    repairTruncatedJson text =
      some (stripCommaSpec (rstrip (closeQuoteSpec (rstrip text))) ++
            unclosedSpec (closeQuoteSpec (rstrip text))) ∧
    repairTruncatedJson scenarioB = some scenarioBRepaired ∧
    parseJson scenarioBRepaired = some scenarioBJson := by
  refine ⟨?_, rfl, rfl⟩
  unfold repairTruncatedJson closeQuoteSpec unclosedSpec stripCommaSpec
  rw [if_neg (by simp [h1, h2])]
  simp only [qscanLoop_iff_odd, bscanLoop_eq_bfold]
  simp [stOf]

/-- Witness for C5 at the truncated input of Scenario B. -/
theorem C5_repair_witness :
    repairTruncatedJson scenarioB =
      some (stripCommaSpec (rstrip (closeQuoteSpec (rstrip scenarioB))) ++
            unclosedSpec (closeQuoteSpec (rstrip scenarioB))) :=
  (C5_repair scenarioB (by decide) (by decide)).1

/-! ## C4 — `generate_structured` retry structure -/

theorem tryRound_fst (validate : Json → Bool) (cands : List (List Char)) :
    ∀ le, (tryRound validate cands le).1 = firstValid validate cands := by
  induction cands with
  | nil => intro le; simp [tryRound, firstValid]
  | cons c cs ih =>
    intro le
    cases hpv : parseValidate validate c with
    | ok j => simp [tryRound, firstValid, hpv]
    | error e => simp [tryRound, firstValid, hpv, ih]

theorem tryRound_snd_all_fail (validate : Json → Bool) (cands : List (List Char)) :
    firstValid validate cands = none →
    ∀ le c, cands.getLast? = some c →
      (tryRound validate cands le).2 = errOf validate c := by
  induction cands with
  | nil => intro _ le c hc; cases hc
  | cons c0 cs ih =>
    intro hnone le c hc
    cases hpv : parseValidate validate c0 with
    | ok j => simp [firstValid, hpv] at hnone
    | error e0 =>
      have hnone' : firstValid validate cs = none := by
        simpa [firstValid, hpv] using hnone
      cases cs with
      | nil =>
        simp at hc
        subst hc
        simp [tryRound, hpv, errOf]
      | cons c1 cs' =>
        have hc' : (c1 :: cs').getLast? = some c := by
          simpa [List.getLast?_cons_cons] using hc
        simp only [tryRound, hpv]
        exact ih hnone' (some e0) c hc'

/-- **C4**: `generate_structured` performs at most two generation rounds;
within each round the extracted JSON is tried as-is and then repaired, in
that order, the first candidate that parses and validates being returned
immediately (with the round count); if both rounds fail it raises with
the last parse/validation error. -/
theorem C4_generateStructured (gen : Nat → List Char) (validate : Json → Bool) :
    (generateStructured gen validate).roundsUsed ≤ 2 ∧
    (∀ j, firstValid validate (roundCandidates (gen 0)) = some j →
      generateStructured gen validate = ⟨.ok j, 1⟩) ∧
    (firstValid validate (roundCandidates (gen 0)) = none →
      ∀ j, firstValid validate (roundCandidates (gen 1)) = some j →
        generateStructured gen validate = ⟨.ok j, 2⟩) ∧
    (firstValid validate (roundCandidates (gen 0)) = none →
      firstValid validate (roundCandidates (gen 1)) = none →
      ∀ c, (roundCandidates (gen 1)).getLast? = some c →
        generateStructured gen validate = ⟨.error (errOf validate c), 2⟩) := by
  rcases h0 : tryRound validate (roundCandidates (gen 0)) none with ⟨r0, e0⟩
  have hf0 : r0 = firstValid validate (roundCandidates (gen 0)) := by
    rw [← tryRound_fst validate (roundCandidates (gen 0)) none, h0]
  rcases h1 : tryRound validate (roundCandidates (gen 1)) e0 with ⟨r1, e1⟩
  have hf1 : r1 = firstValid validate (roundCandidates (gen 1)) := by
    rw [← tryRound_fst validate (roundCandidates (gen 1)) e0, h1]
  have hg : generateStructured gen validate =
      (match r0 with
       | some j => ⟨.ok j, 1⟩
       | none =>
         match r1 with
         | some j => ⟨.ok j, 2⟩
         | none => ⟨.error e1, 2⟩) := by
    rw [generateStructured]
    simp only [h0]
    cases r0 with
    | some j => rfl
    | none =>
      simp only [h1]
      cases r1 <;> rfl
  refine ⟨?_, ?_, ?_, ?_⟩
  · rw [hg]
    cases r0 <;> cases r1 <;> simp
  · intro j hj
    have hr0 : r0 = some j := by rw [hf0, hj]
    subst hr0
    exact hg.trans rfl
  · intro hn0 j hj
    have hr0 : r0 = none := by rw [hf0, hn0]
    have hr1 : r1 = some j := by rw [hf1, hj]
    subst hr0
    subst hr1
    exact hg.trans rfl
  · intro hn0 hn1 c hc
    have hr0 : r0 = none := by rw [hf0, hn0]
    have hr1 : r1 = none := by rw [hf1, hn1]
    subst hr0
    subst hr1
    have hsnd : (tryRound validate (roundCandidates (gen 1)) e0).2 = e1 := by rw [h1]
    have he1 : e1 = errOf validate c := by
      rw [← hsnd, tryRound_snd_all_fail validate (roundCandidates (gen 1)) hn1 e0 c hc]
    subst he1
    rw [hg]

/-- Witness for C4: with the endpoint answering `{"a": 1}` and a
validator accepting everything, the call returns that value after one
round. -/
theorem C4_generateStructured_witness :
    generateStructured genOkRound (fun _ => true) =
      ⟨.ok (.obj [("a".toList, .num 1)]), 1⟩ :=
  (C4_generateStructured genOkRound (fun _ => true)).2.1 (.obj [("a".toList, .num 1)]) rfl

/-! ## C3 — API retry policy -/

/-- Rearranging one recorded backoff delay into the range-map form. -/
theorem delays_step (attempt k : Nat) (ds : List Nat) :
    (ds ++ [RETRY_BASE_DELAY * 2 ^ attempt]) ++
      (List.range k).map (fun i => RETRY_BASE_DELAY * 2 ^ (attempt + 1 + i)) =
    ds ++ (List.range (k + 1)).map (fun i => RETRY_BASE_DELAY * 2 ^ (attempt + i)) := by
  have h1 : (List.range (k + 1)).map (fun i => RETRY_BASE_DELAY * 2 ^ (attempt + i)) =
      RETRY_BASE_DELAY * 2 ^ attempt ::
        (List.range k).map (fun i => RETRY_BASE_DELAY * 2 ^ (attempt + 1 + i)) := by
    rw [List.range_succ_eq_map, List.map_cons, List.map_map]
    have h2 : ((fun i => RETRY_BASE_DELAY * 2 ^ (attempt + i)) ∘ (fun i => i + 1)) =
        (fun i => RETRY_BASE_DELAY * 2 ^ (attempt + 1 + i)) := by
      funext i
      simp only [Function.comp_apply]
      congr 2
      omega
    rw [h2]
    simp
  rw [h1, List.append_assoc, List.singleton_append]

/-- Backoff delays of the retry loop: starting at loop index `attempt`,
the sleeps performed extend `ds` by `RETRY_BASE_DELAY * 2 ^ i` for
consecutive indices `i` from `attempt`, at most until index
`MAX_API_RETRIES - 2`, and the loop enters at most `fuel` further
iterations. -/
theorem genLoop_delays (sys : Bool) (ep : Nat → ApiResult) :
    ∀ fuel attempt ci ds le, ∃ k,
      k ≤ MAX_API_RETRIES - 1 - attempt ∧ k ≤ fuel ∧
      (genLoop sys ep fuel attempt ci ds le).delays =
        ds ++ (List.range k).map (fun i => RETRY_BASE_DELAY * 2 ^ (attempt + i)) ∧
      (genLoop sys ep fuel attempt ci ds le).attemptsUsed ≤ attempt + fuel := by
  intro fuel
  induction fuel with
  | zero =>
    intro attempt ci ds le
    refine ⟨0, by omega, by omega, by simp [genLoop], by simp [genLoop]⟩
  | succ fuel ih =>
    intro attempt ci ds le
    cases hep : ep ci with
    | success t =>
      refine ⟨0, by omega, by omega, ?_, ?_⟩
      · simp [genLoop, hep]
      · simp [genLoop, hep]
    | failure msg =>
      by_cases hsys : sys = true ∧ mentionsSystem msg = true
      · cases hep2 : ep (ci + 1) with
        | success t =>
          refine ⟨0, by omega, by omega, ?_, ?_⟩
          · simp [genLoop, hep, hep2, if_pos hsys]
          · simp [genLoop, hep, hep2, if_pos hsys]
        | failure m2 =>
          by_cases htr : isTransient m2 = true ∧ attempt < MAX_API_RETRIES - 1
          · have hlt : attempt < MAX_API_RETRIES - 1 := htr.2
            obtain ⟨k, hk1, hk2, hds, hat⟩ :=
              ih (attempt + 1) (ci + 2) (ds ++ [RETRY_BASE_DELAY * 2 ^ attempt]) m2
            have hred : genLoop sys ep (fuel + 1) attempt ci ds le =
                genLoop sys ep fuel (attempt + 1) (ci + 2)
                  (ds ++ [RETRY_BASE_DELAY * 2 ^ attempt]) m2 := by
              simp [genLoop, hep, hep2, if_pos hsys, if_pos htr]
            refine ⟨k + 1, by omega, by omega, ?_, ?_⟩
            · rw [hred, hds, delays_step]
            · rw [hred]
              omega
          · refine ⟨0, by omega, by omega, ?_, ?_⟩
            · simp [genLoop, hep, hep2, if_pos hsys, if_neg htr]
            · simp [genLoop, hep, hep2, if_pos hsys, if_neg htr]
      · by_cases htr : isTransient msg = true ∧ attempt < MAX_API_RETRIES - 1
        · have hlt : attempt < MAX_API_RETRIES - 1 := htr.2
          obtain ⟨k, hk1, hk2, hds, hat⟩ :=
            ih (attempt + 1) (ci + 1) (ds ++ [RETRY_BASE_DELAY * 2 ^ attempt]) msg
          have hred : genLoop sys ep (fuel + 1) attempt ci ds le =
              genLoop sys ep fuel (attempt + 1) (ci + 1)
                (ds ++ [RETRY_BASE_DELAY * 2 ^ attempt]) msg := by
            simp [genLoop, hep, if_neg hsys, if_pos htr]
          refine ⟨k + 1, by omega, by omega, ?_, ?_⟩
          · rw [hred, hds, delays_step]
          · rw [hred]
            omega
        · refine ⟨0, by omega, by omega, ?_, ?_⟩
          · simp [genLoop, hep, if_neg hsys, if_neg htr]
          · simp [genLoop, hep, if_neg hsys, if_neg htr]

/-- **C3 (counterexample to the claim as stated)**: with a system prompt
supplied, a first-attempt failure that is classified *non-transient* but
mentions the system role does **not** raise immediately with no further
attempts: the code issues one further (fallback) request, and when that
succeeds, `generate` returns its text instead of raising. -/
theorem C3_nontransient_counterexample :
    isTransient "Developer instruction (role system) is not enabled".toList = false ∧
    mentionsSystem "Developer instruction (role system) is not enabled".toList = true ∧
    (generateApi true epSysReject).outcome = .ok "ok".toList ∧
    (generateApi true epSysReject).calls = 2 := by
  refine ⟨?_, ?_, ?_, ?_⟩ <;> rfl

/-- **C3 (amended)**: transient-classified failures are retried up to the
cap of `MAX_API_RETRIES = 3` loop attempts with the inter-attempt delay
doubling from 5s; a non-transient failure raises immediately with no
further request **unless** a system prompt was supplied and the error
message mentions "system", in which case a single immediate fallback
request is issued first; and in Scenario D (two transient failures, then
success) `generate` returns the success text with attempt count 3 and
delays 5s, 10s. -/
theorem C3_retry_policy :
    (∀ sys ep,
      (generateApi sys ep).attemptsUsed ≤ MAX_API_RETRIES ∧
      (generateApi sys ep).delays.length ≤ MAX_API_RETRIES - 1 ∧
      (generateApi sys ep).delays =
        (List.range (generateApi sys ep).delays.length).map
          (fun i => RETRY_BASE_DELAY * 2 ^ i)) ∧
    (∀ sys ep m, ep 0 = .failure m →
      ¬ (sys = true ∧ mentionsSystem m = true) →
      isTransient m = false →
      generateApi sys ep = ⟨.error m, 1, 1, []⟩) ∧
    (∀ sys ep m, ep 0 = .failure m →
      ¬ (sys = true ∧ mentionsSystem m = true) →
      isTransient m = true →
      generateApi sys ep =
        genLoop sys ep (MAX_API_RETRIES - 1) 1 1 [RETRY_BASE_DELAY] m) ∧
    generateApi false epScenarioD =
      ⟨.ok "answer".toList, 3, 3, [5, 10]⟩ := by
  refine ⟨?_, ?_, ?_, ?_⟩
  · intro sys ep
    obtain ⟨k, hk1, hk2, hds, hat⟩ := genLoop_delays sys ep MAX_API_RETRIES 0 0 [] []
    have hlen : (generateApi sys ep).delays.length = k := by
      rw [generateApi, hds]
      simp
    refine ⟨by simpa [generateApi] using hat, ?_, ?_⟩
    · rw [hlen]
      simpa [MAX_API_RETRIES] using hk1
    · rw [hlen, generateApi, hds]
      simp
  · intro sys ep m hep hsys htr
    simp [generateApi, genLoop, hep, if_neg hsys, htr]
  · intro sys ep m hep hsys htr
    simp [generateApi, genLoop, hep, if_neg hsys, htr, MAX_API_RETRIES, RETRY_BASE_DELAY]
  · rfl

/-- Witness for C3 (amended): a non-transient failure with no system
prompt raises immediately after one request. -/
theorem C3_retry_policy_witness :
    generateApi false (fun _ => .failure "invalid request".toList) =
      ⟨.error "invalid request".toList, 1, 1, []⟩ :=
  C3_retry_policy.2.1 false (fun _ => .failure "invalid request".toList)
    "invalid request".toList rfl (by simp) rfl

/-! ## C1 — hard-dependency cascade after `reason` fails -/

/-- **C1**: whenever `parse` succeeds and `reason` fails, every step
ordered after `reason` ends `SKIPPED` with an error naming the failed
prerequisite, and its status history is exactly `PENDING, SKIPPED` — it
is never `RUNNING` and is never executed. -/
theorem C1_reason_cascade (drug guide : Bool) (outcome : String → Except String Unit)
    (dur : String → Nat) (hp : outcome "parse" = .ok ()) (m : String)
    (hr : outcome "reason" = .error m) :
    ∀ s ∈ (runPipeline drug guide outcome dur).steps,
      s.step_id ≠ "parse" → s.step_id ≠ "reason" →
        s.status = .skipped ∧
        s.error = some "Skipped: prerequisite step 'reason' failed" ∧
        takesOn (runPipeline drug guide outcome dur) s.step_id = [.pending, .skipped] := by
  cases drug <;> cases guide <;>
    (simp only [runPipeline, hp, hr, createSteps, markRunning, runStepM, runStepCore,
      skipRemaining, skipGo, takesOn, assignments]
     simp
     simp [dedupConsec])

/-- Witness for C1: with both optional steps enabled, `parse` succeeding
and `reason` raising, `synthesize` is skipped with the prerequisite
error and history `PENDING, SKIPPED`. -/
theorem C1_reason_cascade_witness :
    (rsC1.steps.get ⟨5, by decide⟩).status = .skipped ∧
    (rsC1.steps.get ⟨5, by decide⟩).error =
      some "Skipped: prerequisite step 'reason' failed" ∧
    takesOn rsC1 "synthesize" = [.pending, .skipped] := by
  have h := C1_reason_cascade true true epC1 (fun _ => 3) rfl "MedGemma 500" rfl
  have hmem : rsC1.steps.get ⟨5, by decide⟩ ∈ rsC1.steps := rsC1.steps.get_mem 5 (by decide)
  have h5 := h (rsC1.steps.get ⟨5, by decide⟩) hmem (by decide) (by decide)
  have hid : (rsC1.steps.get ⟨5, by decide⟩).step_id = "synthesize" := by decide
  rw [hid] at h5
  exact h5

/-- **C2 (counterexample to the claim as stated)**: in a run where
`reason` fails, the `synthesize` step's status sequence is
`PENDING, SKIPPED` — it moves from `PENDING` directly to a terminal
status without passing through `RUNNING`, which is not a prefix of
`Pending, Running, terminal`. -/
theorem C2_skip_counterexample :
    takesOn (runPipeline false false
        (fun id => if id = "parse" then .ok () else .error "boom") (fun _ => 0))
        "synthesize" = [.pending, .skipped] ∧
    ¬ claimP1Allows [.pending, .skipped] := by
  constructor
  · rfl
  · intro h
    rcases h with h | h | h <;> rcases h with ⟨t, ht⟩ <;> simp at ht

set_option maxHeartbeats 2000000 in
/-- **C2 (amended)**: over every complete pipeline run, each step's
status sequence is `PENDING, RUNNING, COMPLETED`, or
`PENDING, RUNNING, FAILED`, or — for steps skipped by a failed hard
dependency — `PENDING, SKIPPED` directly, without passing through
`RUNNING`; in particular a terminal status is never left and the status
never regresses. -/
theorem C2_status_sequences (drug guide : Bool) (outcome : String → Except String Unit)
    (dur : String → Nat) :
    ∀ s ∈ (runPipeline drug guide outcome dur).steps,
      takesOn (runPipeline drug guide outcome dur) s.step_id =
          [.pending, .running, .completed] ∨
      takesOn (runPipeline drug guide outcome dur) s.step_id =
          [.pending, .running, .failed] ∨
      takesOn (runPipeline drug guide outcome dur) s.step_id =
          [.pending, .skipped] := by
  rcases hp : outcome "parse" with mp | up
  case error =>
    cases drug <;> cases guide <;>
      (simp only [runPipeline, hp, createSteps, markRunning, runStepM, runStepCore,
        skipRemaining, skipGo, takesOn, assignments]
       simp [dedupConsec])
  case ok =>
    rcases hr : outcome "reason" with mr | ur
    case error =>
      cases drug <;> cases guide <;>
        (simp only [runPipeline, hp, hr, createSteps, markRunning, runStepM, runStepCore,
          skipRemaining, skipGo, takesOn, assignments]
         simp [dedupConsec])
    case ok =>
      cases drug <;> cases guide
      · rcases hs : outcome "synthesize" with ms | us <;>
          (simp only [runPipeline, hp, hr, hs, createSteps, markRunning,
            runStepM, runStepCore, skipRemaining, skipGo, takesOn, assignments]
           simp [dedupConsec])
      · rcases hg : outcome "guidelines" with mg | ug <;>
          rcases hc : outcome "conflicts" with mc | uc <;>
          rcases hs : outcome "synthesize" with ms | us <;>
          (simp only [runPipeline, hp, hr, hg, hc, hs, createSteps, markRunning,
            runStepM, runStepCore, skipRemaining, skipGo, takesOn, assignments]
           simp [dedupConsec])
      · rcases hd : outcome "drugs" with md | ud <;>
          rcases hs : outcome "synthesize" with ms | us <;>
          (simp only [runPipeline, hp, hr, hd, hs, createSteps, markRunning,
            runStepM, runStepCore, skipRemaining, skipGo, takesOn, assignments]
           simp [dedupConsec])
      · rcases hd : outcome "drugs" with md | ud <;>
          rcases hg : outcome "guidelines" with mg | ug <;>
          rcases hc : outcome "conflicts" with mc | uc <;>
          rcases hs : outcome "synthesize" with ms | us <;>
          (simp only [runPipeline, hp, hr, hd, hg, hc, hs, createSteps, markRunning,
            runStepM, runStepCore, skipRemaining, skipGo, takesOn, assignments]
           simp [dedupConsec])

/-- Witness companion for C2 (amended): holds trivially on a run with
every step succeeding. -/
theorem C2_status_sequences_witness :
    takesOn rsC2 "parse" = [.pending, .running, .completed] ∨
    takesOn rsC2 "parse" = [.pending, .running, .failed] ∨
    takesOn rsC2 "parse" = [.pending, .skipped] := by
  have h := C2_status_sequences true true (fun _ => .ok ()) (fun _ => 1)
  have hmem : rsC2.steps.get ⟨0, by decide⟩ ∈ rsC2.steps := rsC2.steps.get_mem 0 (by decide)
  have h0 := h (rsC2.steps.get ⟨0, by decide⟩) hmem
  have hid : (rsC2.steps.get ⟨0, by decide⟩).step_id = "parse" := by decide
  rw [hid] at h0
  exact h0

/-- **C8 (counterexample to the claim as stated)**: when consecutive
artifacts have *empty* differentials their top-5 label sets are
identical, yet `_has_converged` returns `False` (`if not prev_names or
not curr_names`), so with `max_iterations = 2` the loop runs to
exhaustion: the history has 3 entries instead of stopping at iteration 1
with 2. -/
theorem C8_empty_counterexample :
    (refine ⟨2, 1/20⟩ emptyCRR (fun _ => .ok emptyCRR)).2 =
      [emptyCRR, emptyCRR, emptyCRR] ∧
    topLabels 5 emptyCRR = topLabels 5 emptyCRR ∧
    (refine ⟨2, 1/20⟩ emptyCRR (fun _ => .ok emptyCRR)).2.length = 3 := by
  refine ⟨?_, rfl, ?_⟩ <;> rfl

theorem hasConverged_of_same (cfg : IterativeConfig)
    (hthr : 0 ≤ cfg.convergence_threshold) (a b : ClinicalReasoningResult)
    (h : sameNonemptyTop5 a b) : hasConverged cfg a b = true := by
  obtain ⟨heq, hne⟩ := h
  unfold hasConverged
  rw [← heq]
  rw [if_neg (by simp [hne])]
  simp only [Finset.inter_self, Finset.union_self]
  have hpos : (0 : ℚ) < (topLabels 5 a).card := by
    have : 0 < (topLabels 5 a).card :=
      Finset.card_pos.mpr (Finset.nonempty_iff_ne_empty.mpr hne)
    exact_mod_cast this
  rw [if_pos hpos, div_self (ne_of_gt hpos), decide_eq_true_eq]
  linarith

/-- Splitting an adjacent pair of a one-element extension. -/
theorem pair_in_concat {α : Type} (l : List α) (x : α) (k : Nat) (a b : α)
    (ha : (l ++ [x])[k]? = some a) (hb : (l ++ [x])[k + 1]? = some b) :
    (l[k]? = some a ∧ l[k + 1]? = some b) ∨
    (k + 1 = l.length ∧ l[k]? = some a ∧ b = x) := by
  have hblen : k + 1 < l.length + 1 := by
    have := List.getElem?_eq_some_iff.mp hb
    simpa using this.1
  by_cases hk : k + 1 < l.length
  · left
    rw [List.getElem?_append_left (by omega)] at ha
    rw [List.getElem?_append_left hk] at hb
    exact ⟨ha, hb⟩
  · right
    have hke : k + 1 = l.length := by omega
    refine ⟨hke, ?_, ?_⟩
    · rw [List.getElem?_append_left (by omega)] at ha
      exact ha
    · rw [show k + 1 = l.length from hke, List.getElem?_concat_length] at hb
      exact (Option.some.injEq _ _ ▸ hb).symm

/-- Invariant proof for the refinement loop: history length bound, head
and last element tracking, and "an adjacent pair with identical nonempty
top-5 label sets can only be the final pair". -/
theorem refineLoop_invariant (cfg : IterativeConfig)
    (oracle : Nat → Except Unit ClinicalReasoningResult)
    (hthr : 0 ≤ cfg.convergence_threshold) :
    ∀ (fuel iteration : Nat) (current : ClinicalReasoningResult)
      (hist : List ClinicalReasoningResult),
      hist ≠ [] →
      hist.getLast? = some current →
      (∀ k a b, hist[k]? = some a → hist[k + 1]? = some b → ¬ sameNonemptyTop5 a b) →
      (refineLoop cfg oracle fuel iteration current hist).2.length ≤ hist.length + fuel ∧
      (refineLoop cfg oracle fuel iteration current hist).2.head? = hist.head? ∧
      (refineLoop cfg oracle fuel iteration current hist).2.getLast? =
        some (refineLoop cfg oracle fuel iteration current hist).1 ∧
      (∀ k a b, (refineLoop cfg oracle fuel iteration current hist).2[k]? = some a →
        (refineLoop cfg oracle fuel iteration current hist).2[k + 1]? = some b →
        sameNonemptyTop5 a b →
        (refineLoop cfg oracle fuel iteration current hist).2.length = k + 2) := by
  intro fuel
  induction fuel with
  | zero =>
    intro iteration current hist hne hlast hinv
    have hred : refineLoop cfg oracle 0 iteration current hist = (current, hist) := rfl
    rw [hred]
    exact ⟨by simp, rfl, hlast, fun k a b ha hb hs => absurd hs (hinv k a b ha hb)⟩
  | succ fuel ih =>
    intro iteration current hist hne hlast hinv
    cases hor : oracle iteration with
    | error e =>
      have hred : refineLoop cfg oracle (fuel + 1) iteration current hist =
          (current, hist) := by
        simp [refineLoop, hor]
      rw [hred]
      exact ⟨by simp, rfl, hlast, fun k a b ha hb hs => absurd hs (hinv k a b ha hb)⟩
    | ok revised =>
      have hlen : hist.length ≠ 0 := fun h => hne (List.eq_nil_of_length_eq_zero h)
      have hcur : hist[hist.length - 1]? = some current := by
        rw [← List.getLast?_eq_getElem?]
        exact hlast
      by_cases hc : hasConverged cfg current revised = true
      · have hred : refineLoop cfg oracle (fuel + 1) iteration current hist =
            (revised, hist ++ [revised]) := by
          simp [refineLoop, hor, hc]
        rw [hred]
        refine ⟨by simp, ?_, ?_, ?_⟩
        · cases hist with
          | nil => exact absurd rfl hne
          | cons h t => simp
        · simp
        · intro k a b ha hb hs
          rcases pair_in_concat hist revised k a b ha hb with ⟨ha', hb'⟩ | ⟨hke, ha', hbx⟩
          · exact absurd hs (hinv k a b ha' hb')
          · simp [← hke]
      · have hred : refineLoop cfg oracle (fuel + 1) iteration current hist =
            refineLoop cfg oracle fuel (iteration + 1) revised (hist ++ [revised]) := by
          simp [refineLoop, hor, hc]
        rw [hred]
        have hinv' : ∀ k a b, (hist ++ [revised])[k]? = some a →
            (hist ++ [revised])[k + 1]? = some b → ¬ sameNonemptyTop5 a b := by
          intro k a b ha hb hs
          rcases pair_in_concat hist revised k a b ha hb with ⟨ha', hb'⟩ | ⟨hke, ha', hbx⟩
          · exact hinv k a b ha' hb' hs
          · have hka : a = current := by
              have : k = hist.length - 1 := by omega
              rw [this] at ha'
              rw [hcur] at ha'
              exact (Option.some.injEq _ _ ▸ ha').symm
            subst hka
            subst hbx
            exact hc (hasConverged_of_same cfg hthr a b hs)
        have hne' : hist ++ [revised] ≠ [] := by simp
        have hlast' : (hist ++ [revised]).getLast? = some revised := by simp
        obtain ⟨h1, h2, h3, h4⟩ :=
          ih (iteration + 1) revised (hist ++ [revised]) hne' hlast' hinv'
        have hlen2 : (hist ++ [revised]).length = hist.length + 1 := by simp
        rw [hlen2] at h1
        refine ⟨by omega, ?_, h3, h4⟩
        rw [h2]
        cases hist with
        | nil => exact absurd rfl hne
        | cons h t => simp

/-- **C8 (amended)**: for every `refine` call with `max_iterations ≥ 1`
and a nonnegative convergence threshold, the loop terminates with at
most `max_iterations + 1` artifacts in the history; if two consecutive
artifacts have identical **and nonempty** top-5 label sets
(case-insensitively normalized), that pair is the last one — the loop
stops at that iteration; and in every case, including early exit on
structured-generation failure, `history[0]` is the seed and
`history[-1]` is the artifact returned. -/
theorem C8_refine (cfg : IterativeConfig) (seed : ClinicalReasoningResult)
    (oracle : Nat → Except Unit ClinicalReasoningResult)
    (_hmax : 1 ≤ cfg.max_iterations) (hthr : 0 ≤ cfg.convergence_threshold) :
    (refine cfg seed oracle).2.length ≤ cfg.max_iterations + 1 ∧
    (refine cfg seed oracle).2.head? = some seed ∧
    (refine cfg seed oracle).2.getLast? = some (refine cfg seed oracle).1 ∧
    (∀ k a b, (refine cfg seed oracle).2[k]? = some a →
      (refine cfg seed oracle).2[k + 1]? = some b →
      topLabels 5 a = topLabels 5 b → topLabels 5 a ≠ ∅ →
      (refine cfg seed oracle).2.length = k + 2) := by
  have hinv0 : ∀ k a b, ([seed] : List ClinicalReasoningResult)[k]? = some a →
      ([seed] : List ClinicalReasoningResult)[k + 1]? = some b →
      ¬ sameNonemptyTop5 a b := by
    intro k a b ha hb
    have := List.getElem?_eq_some_iff.mp hb
    simp at this
  obtain ⟨h1, h2, h3, h4⟩ := refineLoop_invariant cfg oracle hthr
    cfg.max_iterations 1 seed [seed] (by simp) (by simp) hinv0
  simp only [List.length_singleton] at h1
  have hre : refine cfg seed oracle = refineLoop cfg oracle cfg.max_iterations 1 seed [seed] := rfl
  refine ⟨by rw [hre]; omega, by simpa using h2, h3, ?_⟩
  intro k a b ha hb hs hne
  exact h4 k a b ha hb ⟨hs, hne⟩

/-- Witness for C8 (amended) at a concrete converging run. -/
theorem C8_refine_witness :
    (refine ⟨3, 1/20⟩ crrConsensus (fun _ => .ok crrConsensus)).2.head? =
      some crrConsensus :=
  (C8_refine ⟨3, 1/20⟩ crrConsensus (fun _ => .ok crrConsensus)
    (by norm_num) (by norm_num)).2.1

/-- **C7 (counterexample to the claim as stated)**: on `{"a": "}"}`,
whose first balanced span under a quote-aware scan is the whole object,
`_extract_json` stops at the `}` inside the string literal and returns
`{"a": "}` — a bracket character inside a string literal changed the
depth count and moved the end of the span. -/
theorem C7_quote_unaware_counterexample :
    extractJson "\x7b\"a\": \"\x7d\"\x7d".toList = "\x7b\"a\": \"\x7d".toList ∧
    extractJsonQuoteAware "\x7b\"a\": \"\x7d\"\x7d".toList = "\x7b\"a\": \"\x7d\"\x7d".toList ∧
    extractJson "\x7b\"a\": \"\x7d\"\x7d".toList ≠ extractJsonQuoteAware "\x7b\"a\": \"\x7d\"\x7d".toList := by
  refine ⟨rfl, rfl, by decide⟩

theorem isPrefixL_trans (a b c : List Char) (hab : isPrefixL a b = true)
    (hbc : isPrefixL b c = true) : isPrefixL a c = true := by
  induction a generalizing b c with
  | nil => simp [isPrefixL]
  | cons x xs ih =>
    cases b with
    | nil => simp [isPrefixL] at hab
    | cons y ys =>
      cases c with
      | nil => simp [isPrefixL] at hbc
      | cons z zs =>
        simp only [isPrefixL, Bool.and_eq_true, decide_eq_true_eq] at hab hbc ⊢
        exact ⟨hab.1.trans hbc.1, ih ys zs hab.2 hbc.2⟩

theorem containsSub_mono (n m hay : List Char) (hpre : isPrefixL n m = true)
    (h : containsSub m hay = true) : containsSub n hay = true := by
  induction hay with
  | nil =>
    simp only [containsSub, idxOfSub] at h ⊢
    by_cases hm : isPrefixL m [] = true
    · rw [if_pos (isPrefixL_trans n m [] hpre hm)]
      rfl
    · rw [if_neg (by simpa using hm)] at h
      simp at h
  | cons c cs ih =>
    simp only [containsSub, idxOfSub] at h ⊢
    by_cases hm : isPrefixL m (c :: cs) = true
    · rw [if_pos (isPrefixL_trans n m (c :: cs) hpre hm)]
      rfl
    · rw [if_neg (by simpa using hm)] at h
      have h' : (idxOfSub m cs).isSome = true := by
        cases hx : idxOfSub m cs with
        | none =>
          rw [hx] at h
          simp at h
        | some v => rfl
      have := ih h' 
      by_cases hn : isPrefixL n (c :: cs) = true
      · rw [if_pos hn]
        rfl
      · rw [if_neg (by simpa using hn)]
        simpa using this

theorem depthScan_gt (s : List Char) : ∀ d k r, depthScan s d k = some r → k < r := by
  induction s with
  | nil => intro d k r h; simp [depthScan] at h
  | cons c cs ih =>
    intro d k r h
    simp only [depthScan] at h
    split at h
    · have := Option.some.inj h
      omega
    · have := ih (d + bracketDelta c) (k + 1) r h
      omega

/-- The quote-blind depth scan returns exactly the least positive prefix
length at which the running bracket-count (open minus close, quotes
ignored) cancels the starting depth. -/
theorem depthScan_iff (s : List Char) : ∀ (d : Int) (k n : Nat),
    depthScan s d k = some (k + n) ↔
      (1 ≤ n ∧ n ≤ s.length ∧ d + sumDelta (s.take n) = 0 ∧
        ∀ m, 1 ≤ m → m < n → d + sumDelta (s.take m) ≠ 0) := by
  induction s with
  | nil =>
    intro d k n
    constructor
    · intro h
      simp [depthScan] at h
    · rintro ⟨h1, h2, -, -⟩
      simp at h2
      omega
  | cons c cs ih =>
    intro d k n
    by_cases hz : d + bracketDelta c = 0
    · have hred : depthScan (c :: cs) d k = some (k + 1) := by
        simp [depthScan, hz]
      rw [hred]
      constructor
      · intro h
        have hn : n = 1 := by
          have := Option.some.inj h
          omega
        subst hn
        refine ⟨le_refl 1, by simp, ?_, ?_⟩
        · simpa [sumDelta] using hz
        · intro m hm1 hm2
          omega
      · rintro ⟨h1, h2, h3, h4⟩
        have hn : n = 1 := by
          by_contra hne
          exact h4 1 (by omega) (by omega) (by simpa [sumDelta] using hz)
        subst hn
        rfl
    · have hred : depthScan (c :: cs) d k =
          depthScan cs (d + bracketDelta c) (k + 1) := by
        simp [depthScan, hz]
      rw [hred]
      cases n with
      | zero =>
        constructor
        · intro h
          have := depthScan_gt cs (d + bracketDelta c) (k + 1) (k + 0) h
          omega
        · rintro ⟨h1, -, -, -⟩
          omega
      | succ n' =>
        rw [show k + (n' + 1) = (k + 1) + n' by omega,
          ih (d + bracketDelta c) (k + 1) n']
        constructor
        · rintro ⟨h1, h2, h3, h4⟩
          refine ⟨by omega, by simp; omega, ?_, ?_⟩
          · rw [List.take_succ_cons]
            simp only [sumDelta, List.map_cons, List.sum_cons] at h3 ⊢
            linarith
          · intro m hm1 hm2
            cases m with
            | zero => omega
            | succ m' =>
              cases m' with
              | zero =>
                simpa [sumDelta] using hz
              | succ m'' =>
                have h5 := h4 (m'' + 1) (by omega) (by omega)
                rw [List.take_succ_cons]
                simp only [sumDelta, List.map_cons, List.sum_cons] at h5 ⊢
                intro hcon
                exact h5 (by linarith)
        · rintro ⟨h1, h2, h3, h4⟩
          have hn' : 1 ≤ n' := by
            by_contra hlt
            have hn0 : n' = 0 := by omega
            subst hn0
            rw [List.take_succ_cons, List.take_zero] at h3
            exact hz (by simpa [sumDelta] using h3)
          refine ⟨hn', by simpa using h2, ?_, ?_⟩
          · rw [List.take_succ_cons] at h3
            simp only [sumDelta, List.map_cons, List.sum_cons] at h3 ⊢
            linarith
          · intro m hm1 hm2
            have h5 := h4 (m + 1) (by omega) (by omega)
            rw [List.take_succ_cons] at h5
            simp only [sumDelta, List.map_cons, List.sum_cons] at h5 ⊢
            intro hcon
            exact h5 (by linarith)

/-- **C7 (amended)**: for input without a fenced block, `_extract_json`
returns the result of the raw bracket-depth scan — which is
quote-**blind**: the inner scan stops at exactly the least positive
prefix length whose bracket count (brackets inside string literals
included) cancels, and on `{"a": "}"}` this ends the span at the `}`
inside the string literal. -/
theorem C7_extract_raw_scan (text : List Char)
    (hf : containsSub "```".toList text = false) :
    extractJson text =
      (match findSpan text with
       | some s => s
       | none => pyStrip text) ∧
    (∀ (s : List Char) (d : Int) (k n : Nat),
      depthScan s d k = some (k + n) ↔
        (1 ≤ n ∧ n ≤ s.length ∧ d + sumDelta (s.take n) = 0 ∧
          ∀ m, 1 ≤ m → m < n → d + sumDelta (s.take m) ≠ 0)) ∧
    extractJson "\x7b\"a\": \"\x7d\"\x7d".toList = "\x7b\"a\": \"\x7d".toList := by
  refine ⟨?_, fun s d k n => depthScan_iff s d k n, rfl⟩
  have hfj : containsSub "```json".toList text = false := by
    by_contra hc
    rw [containsSub_mono "```".toList "```json".toList text (by decide)
      (by simpa using hc)] at hf
    exact absurd hf (by simp)
  have h1 : idxOfSub "```json".toList text = none := by
    cases hx : idxOfSub "```json".toList text with
    | none => rfl
    | some v =>
      have hcon : containsSub "```json".toList text = true := by
        unfold containsSub
        rw [hx]
        rfl
      rw [hcon] at hfj
      simp at hfj
  have h2 : idxOfSub "```".toList text = none := by
    cases hx : idxOfSub "```".toList text with
    | none => rfl
    | some v =>
      have hcon : containsSub "```".toList text = true := by
        unfold containsSub
        rw [hx]
        rfl
      rw [hcon] at hf
      simp at hf
  simp only [extractJson, h1, h2]

/-- Witness for C7 (amended) at a concrete fence-free input. -/
theorem C7_extract_raw_scan_witness :
    extractJson "noise \x7b\"k\": [1, 2]\x7d trailing".toList = "\x7b\"k\": [1, 2]\x7d".toList :=
  ((C7_extract_raw_scan "noise \x7b\"k\": [1, 2]\x7d trailing".toList rfl).1).trans rfl

/-! ## C6 — round-trip of repair over serialized JSON

Stage 1: decimal digits, string-body round-trip, head reductions. -/

theorem natToCharsGo_eq (n : Nat) (acc : List Char) :
    natToCharsGo n acc =
      if n < 10 then digitChar n :: acc
      else natToCharsGo (n / 10) (digitChar (n % 10) :: acc) := by
  rw [natToCharsGo]
  by_cases h : n < 10
  · simp [h]
  · simp [h]

theorem natToCharsGo_append (n : Nat) : ∀ acc, natToCharsGo n acc = natToCharsGo n [] ++ acc := by
  induction n using Nat.strong_induction_on with
  | _ n ih =>
    intro acc
    by_cases h : n < 10
    · rw [natToCharsGo_eq n acc, natToCharsGo_eq n [], if_pos h, if_pos h]
      simp
    · have hlt : n / 10 < n := Nat.div_lt_self (by omega) (by omega)
      rw [natToCharsGo_eq n acc, natToCharsGo_eq n [], if_neg h, if_neg h,
        ih (n / 10) hlt (digitChar (n % 10) :: acc),
        ih (n / 10) hlt [digitChar (n % 10)]]
      simp

theorem digitChar_isDigit (d : Nat) (h : d < 10) : (digitChar d).isDigit = true := by
  interval_cases d <;> decide

theorem digitChar_val (d : Nat) (h : d < 10) : digitVal (digitChar d) = d := by
  interval_cases d <;> decide

theorem digitsOf_ne_nil (n : Nat) : digitsOf n ≠ [] := by
  unfold digitsOf
  rw [natToCharsGo_eq]
  split
  · simp
  · rw [natToCharsGo_append]
    simp

theorem digitsOf_all_digits (n : Nat) : ∀ c ∈ digitsOf n, c.isDigit = true := by
  induction n using Nat.strong_induction_on with
  | _ n ih =>
    unfold digitsOf
    rw [natToCharsGo_eq]
    by_cases h : n < 10
    · simp only [if_pos h]
      intro c hc
      simp at hc
      subst hc
      exact digitChar_isDigit n h
    · have hlt : n / 10 < n := Nat.div_lt_self (by omega) (by omega)
      simp only [if_neg h]
      rw [natToCharsGo_append]
      intro c hc
      rcases List.mem_append.mp hc with hc | hc
      · exact ih (n / 10) hlt c hc
      · simp at hc
        subst hc
        exact digitChar_isDigit (n % 10) (Nat.mod_lt n (by omega))

theorem digitsVal_step (n : Nat) :
    ∀ a, List.foldl (fun a c => 10 * a + digitVal c) a (digitsOf n) =
      a * 10 ^ (digitsOf n).length + n := by
  induction n using Nat.strong_induction_on with
  | _ n ih =>
    intro a
    unfold digitsOf
    rw [natToCharsGo_eq]
    by_cases h : n < 10
    · simp only [if_pos h]
      simp [digitChar_val n h]
      ring
    · have hlt : n / 10 < n := Nat.div_lt_self (by omega) (by omega)
      simp only [if_neg h]
      rw [natToCharsGo_append, List.foldl_append]
      have hrec := ih (n / 10) hlt a
      unfold digitsOf at hrec
      rw [hrec]
      simp [digitChar_val (n % 10) (Nat.mod_lt n (by omega))]
      rw [pow_succ]
      have hdm : 10 * (n / 10) + n % 10 = n := Nat.div_add_mod n 10
      ring_nf
      omega

theorem parseDigitsAux_spec (ds : List Char) :
    ∀ (rest : List Char) (acc : Nat),
      (∀ c ∈ ds, c.isDigit = true) →
      (∀ c, rest.head? = some c → c.isDigit = false) →
      parseDigitsAux (ds ++ rest) acc =
        (List.foldl (fun a c => 10 * a + digitVal c) acc ds, rest) := by
  induction ds with
  | nil =>
    intro rest acc _ hrest
    cases rest with
    | nil => simp [parseDigitsAux]
    | cons r rs =>
      have := hrest r rfl
      simp [parseDigitsAux, this]
  | cons d ds ih =>
    intro rest acc hds hrest
    have hd : d.isDigit = true := hds d (by simp)
    simp only [List.cons_append, parseDigitsAux, hd, if_pos, List.append_eq]
    rw [ih rest (10 * acc + digitVal d) (fun c hc => hds c (by simp [hc])) hrest]
    simp

/-- `parseDigitsAux` over the serialized digits of `n` reads back `n`. -/
theorem parseDigits_digitsOf (n : Nat) (rest : List Char)
    (hrest : ∀ c, rest.head? = some c → c.isDigit = false) :
    parseDigitsAux (digitsOf n ++ rest) 0 = (n, rest) := by
  rw [parseDigitsAux_spec (digitsOf n) rest 0 (digitsOf_all_digits n) hrest,
    digitsVal_step n 0]
  simp

/-- Parsing a string body inverts escaping. -/
theorem parseStringBody_escStr (s : List Char) : ∀ rest,
    parseStringBody (escStr s ++ '"' :: rest) = some (s, rest) := by
  induction s with
  | nil =>
    intro rest
    simp [escStr, parseStringBody]
  | cons c cs ih =>
    intro rest
    by_cases hc : c = '"' ∨ c = '\\'
    · have hesc : escStr (c :: cs) = '\\' :: c :: escStr cs := by
        simp [escStr, escChar, hc]
      rw [hesc]
      simp only [List.cons_append, parseStringBody, hc, if_pos, List.append_eq]
      rw [ih rest]
      rfl
    · have hesc : escStr (c :: cs) = c :: escStr cs := by
        simp [escStr, escChar, hc]
      rw [hesc]
      have hq : ¬ c = '"' := fun h => hc (Or.inl h)
      have hb : ¬ c = '\\' := fun h => hc (Or.inr h)
      simp only [List.cons_append]
      rw [show parseStringBody (c :: (escStr cs ++ '"' :: rest)) =
          (parseStringBody (escStr cs ++ '"' :: rest)).map (fun p => (c :: p.1, p.2)) by
        simp [parseStringBody, hq, hb]]
      rw [ih rest]
      rfl

/-! Stage 2: a simultaneous induction principle for the nested `Json`
type, and shape facts about serializer output. -/

/-- Simultaneous induction over values, element lists and member lists. -/
theorem jsonInd (P1 : Json → Prop) (P2 : List Json → Prop)
    (P3 : List (List Char × Json) → Prop)
    (hnull : P1 .null) (hbool : ∀ b, P1 (.bool b)) (hnum : ∀ n, P1 (.num n))
    (hstr : ∀ s, P1 (.str s))
    (harr : ∀ l, P2 l → P1 (.arr l)) (hobj : ∀ m, P3 m → P1 (.obj m))
    (hnil2 : P2 []) (hcons2 : ∀ x xs, P1 x → P2 xs → P2 (x :: xs))
    (hnil3 : P3 []) (hcons3 : ∀ k v xs, P1 v → P3 xs → P3 ((k, v) :: xs)) :
    (∀ x, P1 x) ∧ (∀ l, P2 l) ∧ (∀ m, P3 m) := by
  have hx : ∀ x, P1 x := fun x =>
    @Json.rec P1 P2 P3 (fun p => P1 p.2) hnull hbool hnum hstr harr hobj hnil2 hcons2
      hnil3 (fun p tail hp ht => by
        obtain ⟨k, v⟩ := p
        exact hcons3 k v tail hp ht) (fun k v h => h) x
  refine ⟨hx, ?_, ?_⟩
  · intro l
    induction l with
    | nil => exact hnil2
    | cons x xs ih => exact hcons2 x xs (hx x) ih
  · intro m
    induction m with
    | nil => exact hnil3
    | cons p xs ih =>
      obtain ⟨k, v⟩ := p
      exact hcons3 k v xs (hx v) ih

/-- A digit character is neither JSON/Python whitespace nor any of the
punctuation characters the parser dispatches on. -/
theorem digit_not_special (c : Char) (h : c.isDigit = true) :
    jsonWs c = false ∧ pyWs c = false ∧ c ≠ ']' ∧ c ≠ '}' ∧ c ≠ ',' := by
  have hne : ∀ d : Char, d.isDigit = false → c ≠ d := by
    intro d hd he
    subst he
    rw [h] at hd
    cases hd
  refine ⟨?_, ?_, hne ']' (by decide), hne '}' (by decide), hne ',' (by decide)⟩
  · simp [jsonWs, hne ' ' (by decide), hne '\t' (by decide), hne '\n' (by decide),
      hne '\r' (by decide)]
  · simp [pyWs, hne ' ' (by decide), hne '\t' (by decide), hne '\n' (by decide),
      hne '\r' (by decide), hne '\x0b' (by decide), hne '\x0c' (by decide)]

/-- The first character of serializer output: never whitespace, never a
closer, never a comma. -/
theorem serialize_head (x : Json) : ∃ c cs, serialize x = c :: cs ∧
    jsonWs c = false ∧ pyWs c = false ∧ c ≠ ']' ∧ c ≠ '}' ∧ c ≠ ',' := by
  cases x with
  | null => exact ⟨'n', _, rfl, by decide, by decide, by decide, by decide, by decide⟩
  | bool b =>
    cases b with
    | true => exact ⟨'t', _, rfl, by decide, by decide, by decide, by decide, by decide⟩
    | false => exact ⟨'f', _, rfl, by decide, by decide, by decide, by decide, by decide⟩
  | num n =>
    by_cases hn : n < 0
    · refine ⟨'-', digitsOf n.natAbs, ?_, by decide, by decide, by decide, by decide,
        by decide⟩
      simp [serialize, intChars, hn]
    · cases hd : digitsOf n.toNat with
      | nil => exact absurd hd (digitsOf_ne_nil n.toNat)
      | cons c cs =>
        have hcd : c.isDigit = true := digitsOf_all_digits n.toNat c (by simp [hd])
        obtain ⟨hws, hpws, h1, h2, h3⟩ := digit_not_special c hcd
        refine ⟨c, cs, ?_, hws, hpws, h1, h2, h3⟩
        simp [serialize, intChars, hn, hd]
  | str s => exact ⟨'"', _, rfl, by decide, by decide, by decide, by decide, by decide⟩
  | arr l => exact ⟨'[', _, rfl, by decide, by decide, by decide, by decide, by decide⟩
  | obj m => exact ⟨'{', _, rfl, by decide, by decide, by decide, by decide, by decide⟩

/-- The last character of serializer output: never whitespace, never a
comma. -/
theorem serialize_last (x : Json) : ∃ c, (serialize x).getLast? = some c ∧
    pyWs c = false ∧ c ≠ ',' := by
  cases x with
  | null => exact ⟨'l', rfl, by decide, by decide⟩
  | bool b =>
    cases b with
    | true => exact ⟨'e', rfl, by decide, by decide⟩
    | false => exact ⟨'e', rfl, by decide, by decide⟩
  | num n =>
    by_cases hn : n < 0
    · have hd : digitsOf n.natAbs ≠ [] := digitsOf_ne_nil n.natAbs
      have hlast := List.getLast?_eq_getLast_of_ne_nil hd
      have hmem : (digitsOf n.natAbs).getLast hd ∈ digitsOf n.natAbs :=
        List.getLast_mem hd
      obtain ⟨_, hpws, _, _, h3⟩ :=
        digit_not_special _ (digitsOf_all_digits n.natAbs _ hmem)
      refine ⟨_, ?_, hpws, h3⟩
      rw [show serialize (.num n) = ['-'] ++ digitsOf n.natAbs by
        simp [serialize, intChars, hn]]
      rw [List.getLast?_append_of_ne_nil ['-'] hd]
      exact hlast
    · have hd : digitsOf n.toNat ≠ [] := digitsOf_ne_nil n.toNat
      have hlast := List.getLast?_eq_getLast_of_ne_nil hd
      have hmem : (digitsOf n.toNat).getLast hd ∈ digitsOf n.toNat :=
        List.getLast_mem hd
      obtain ⟨_, hpws, _, _, h3⟩ :=
        digit_not_special _ (digitsOf_all_digits n.toNat _ hmem)
      refine ⟨_, ?_, hpws, h3⟩
      rw [show serialize (.num n) = digitsOf n.toNat by
        simp [serialize, intChars, hn]]
      exact hlast
  | str s =>
    refine ⟨'"', ?_, by decide, by decide⟩
    rw [show serialize (.str s) = ('"' :: escStr s) ++ ['"'] by simp [serialize],
      List.getLast?_append_of_ne_nil ('"' :: escStr s) (by simp)]
    rfl
  | arr l =>
    refine ⟨']', ?_, by decide, by decide⟩
    rw [show serialize (.arr l) = ('[' :: serializeElems l) ++ [']'] by simp [serialize],
      List.getLast?_append_of_ne_nil ('[' :: serializeElems l) (by simp)]
    rfl
  | obj m =>
    refine ⟨'}', ?_, by decide, by decide⟩
    rw [show serialize (.obj m) = ('{' :: serializeMembers m) ++ ['}'] by simp [serialize],
      List.getLast?_append_of_ne_nil ('{' :: serializeMembers m) (by simp)]
    rfl

/-! Stage 3: the repair scans are inert on serializer output. -/

theorem qstate_inStr_escStr (s : List Char) : ∀ ys,
    qstate .inStr (escStr s ++ ys) = qstate .inStr ys := by
  induction s with
  | nil => intro ys; simp [escStr]
  | cons c cs ih =>
    intro ys
    by_cases hc : c = '"' ∨ c = '\\'
    · rw [show escStr (c :: cs) = '\\' :: c :: escStr cs by simp [escStr, escChar, hc]]
      simp only [List.cons_append, qstate_cons]
      rw [show qstep .inStr '\\' = .esc from rfl, qstep_esc]
      exact ih ys
    · rw [show escStr (c :: cs) = c :: escStr cs by simp [escStr, escChar, hc]]
      simp only [List.cons_append, qstate_cons]
      rw [qstep_inStr c (fun h => hc (Or.inl h)) (fun h => hc (Or.inr h))]
      exact ih ys

theorem bfold_inStr_escStr (s : List Char) : ∀ st ys,
    bfold (.inStr, st) (escStr s ++ ys) = bfold (.inStr, st) ys := by
  induction s with
  | nil => intro st ys; simp [escStr]
  | cons c cs ih =>
    intro st ys
    by_cases hc : c = '"' ∨ c = '\\'
    · rw [show escStr (c :: cs) = '\\' :: c :: escStr cs by simp [escStr, escChar, hc]]
      simp only [List.cons_append, bfold_cons]
      rw [show bstep (.inStr, st) '\\' = (.esc, st) from rfl,
        show bstep (.esc, st) c = (.inStr, st) from rfl]
      exact ih st ys
    · rw [show escStr (c :: cs) = c :: escStr cs by simp [escStr, escChar, hc]]
      simp only [List.cons_append, bfold_cons]
      rw [bstep_inStr_other st c (fun h => hc (Or.inl h)) (fun h => hc (Or.inr h))]
      exact ih st ys

theorem qstate_out_plain (l : List Char) (h : ∀ c ∈ l, c ≠ '"') : ∀ ys,
    qstate .out (l ++ ys) = qstate .out ys := by
  induction l with
  | nil => intro ys; simp
  | cons c cs ih =>
    intro ys
    simp only [List.cons_append, qstate_cons]
    rw [qstep_out c (h c (by simp))]
    exact ih (fun d hd => h d (by simp [hd])) ys

theorem bfold_out_plain (l : List Char) (h : ∀ c ∈ l, c ∉ (['"', '{', '[', '}', ']'] : List Char)) :
    ∀ st ys, bfold (.out, st) (l ++ ys) = bfold (.out, st) ys := by
  induction l with
  | nil => intro st ys; simp
  | cons c cs ih =>
    intro st ys
    simp only [List.cons_append, bfold_cons]
    rw [bstep_out_other st c (h c (by simp))]
    exact ih (fun d hd => h d (by simp [hd])) st ys

theorem digit_ne_quote (c : Char) (h : c.isDigit = true) : c ≠ '"' := by
  intro he
  subst he
  cases h

theorem digit_not_bracket (c : Char) (h : c.isDigit = true) :
    c ∉ (['"', '{', '[', '}', ']'] : List Char) := by
  intro hm
  fin_cases hm <;> simp at h

theorem intChars_no_quote (n : Int) : ∀ c ∈ intChars n, c ≠ '"' := by
  intro c hc
  unfold intChars at hc
  split at hc
  · rcases List.mem_cons.mp hc with h | h
    · subst h; decide
    · exact digit_ne_quote c (digitsOf_all_digits _ c h)
  · exact digit_ne_quote c (digitsOf_all_digits _ c hc)

theorem intChars_no_bracket (n : Int) : ∀ c ∈ intChars n,
    c ∉ (['"', '{', '[', '}', ']'] : List Char) := by
  intro c hc
  unfold intChars at hc
  split at hc
  · rcases List.mem_cons.mp hc with h | h
    · subst h; decide
    · exact digit_not_bracket c (digitsOf_all_digits _ c h)
  · exact digit_not_bracket c (digitsOf_all_digits _ c hc)

/-- The quote scan passes over any serialized JSON value without entering
a string, and the bracket scan leaves any stack unchanged. -/
theorem serialize_scan_inert :
    (∀ x : Json, ∀ ys, qstate .out (serialize x ++ ys) = qstate .out ys) ∧
    (∀ l : List Json, ∀ ys, qstate .out (serializeElems l ++ ys) = qstate .out ys) ∧
    (∀ m : List (List Char × Json), ∀ ys,
      qstate .out (serializeMembers m ++ ys) = qstate .out ys) := by
  refine jsonInd
    (fun x => ∀ ys, qstate .out (serialize x ++ ys) = qstate .out ys)
    (fun l => ∀ ys, qstate .out (serializeElems l ++ ys) = qstate .out ys)
    (fun m => ∀ ys, qstate .out (serializeMembers m ++ ys) = qstate .out ys)
    ?_ ?_ ?_ ?_ ?_ ?_ ?_ ?_ ?_ ?_
  · intro ys
    exact qstate_out_plain "null".toList (by decide) ys
  · intro b ys
    cases b
    · exact qstate_out_plain "false".toList (by decide) ys
    · exact qstate_out_plain "true".toList (by decide) ys
  · intro n ys
    exact qstate_out_plain (intChars n) (intChars_no_quote n) ys
  · intro s ys
    rw [show serialize (.str s) ++ ys = '"' :: (escStr s ++ ('"' :: ys)) by
      simp [serialize]]
    rw [qstate_cons, show qstep .out '"' = .inStr from rfl, qstate_inStr_escStr,
      qstate_cons, show qstep .inStr '"' = .out from rfl]
  · intro l hl ys
    rw [show serialize (.arr l) ++ ys = '[' :: (serializeElems l ++ (']' :: ys)) by
      simp [serialize]]
    rw [qstate_cons, qstep_out '[' (by decide), hl,
      qstate_cons, qstep_out ']' (by decide)]
  · intro m hm ys
    rw [show serialize (.obj m) ++ ys = '{' :: (serializeMembers m ++ ('}' :: ys)) by
      simp [serialize]]
    rw [qstate_cons, qstep_out '{' (by decide), hm,
      qstate_cons, qstep_out '}' (by decide)]
  · intro ys
    simp [serializeElems]
  · intro x xs hx hxs ys
    cases xs with
    | nil =>
      rw [show serializeElems [x] = serialize x by simp [serializeElems]]
      exact hx ys
    | cons y ys' =>
      rw [show serializeElems (x :: y :: ys') ++ ys =
          serialize x ++ (',' :: (serializeElems (y :: ys') ++ ys)) by
        simp [serializeElems]]
      rw [hx, qstate_cons, qstep_out ',' (by decide), hxs]
  · intro ys
    simp [serializeMembers]
  · intro k v xs hv hxs ys
    have hmember : ∀ zs, qstate .out (('"' :: escStr k ++ '"' :: ':' :: serialize v) ++ zs) =
        qstate .out zs := by
      intro zs
      rw [show ('"' :: escStr k ++ '"' :: ':' :: serialize v) ++ zs =
          '"' :: (escStr k ++ ('"' :: ':' :: (serialize v ++ zs))) by simp]
      rw [qstate_cons, show qstep .out '"' = .inStr from rfl, qstate_inStr_escStr,
        qstate_cons, show qstep .inStr '"' = .out from rfl,
        qstate_cons, qstep_out ':' (by decide), hv]
    cases xs with
    | nil =>
      rw [show serializeMembers [(k, v)] = '"' :: escStr k ++ '"' :: ':' :: serialize v by
        simp [serializeMembers]]
      exact hmember ys
    | cons p ps =>
      rw [show serializeMembers ((k, v) :: p :: ps) ++ ys =
          ('"' :: escStr k ++ '"' :: ':' :: serialize v) ++
            (',' :: (serializeMembers (p :: ps) ++ ys)) by
        simp [serializeMembers]]
      rw [hmember, qstate_cons, qstep_out ',' (by decide), hxs]

/-- The bracket scan passes over any serialized JSON value leaving the
stack (and the outside-string state) unchanged. -/
theorem serialize_bfold_inert :
    (∀ x : Json, ∀ st ys, bfold (.out, st) (serialize x ++ ys) = bfold (.out, st) ys) ∧
    (∀ l : List Json, ∀ st ys,
      bfold (.out, st) (serializeElems l ++ ys) = bfold (.out, st) ys) ∧
    (∀ m : List (List Char × Json), ∀ st ys,
      bfold (.out, st) (serializeMembers m ++ ys) = bfold (.out, st) ys) := by
  refine jsonInd
    (fun x => ∀ st ys, bfold (.out, st) (serialize x ++ ys) = bfold (.out, st) ys)
    (fun l => ∀ st ys, bfold (.out, st) (serializeElems l ++ ys) = bfold (.out, st) ys)
    (fun m => ∀ st ys, bfold (.out, st) (serializeMembers m ++ ys) = bfold (.out, st) ys)
    ?_ ?_ ?_ ?_ ?_ ?_ ?_ ?_ ?_ ?_
  · intro st ys
    exact bfold_out_plain "null".toList (by decide) st ys
  · intro b st ys
    cases b
    · exact bfold_out_plain "false".toList (by decide) st ys
    · exact bfold_out_plain "true".toList (by decide) st ys
  · intro n st ys
    exact bfold_out_plain (intChars n) (intChars_no_bracket n) st ys
  · intro s st ys
    rw [show serialize (.str s) ++ ys = '"' :: (escStr s ++ ('"' :: ys)) by
      simp [serialize]]
    rw [bfold_cons, show bstep (.out, st) '"' = (.inStr, st) from rfl, bfold_inStr_escStr,
      bfold_cons, show bstep (.inStr, st) '"' = (.out, st) from rfl]
  · intro l hl st ys
    rw [show serialize (.arr l) ++ ys = '[' :: (serializeElems l ++ (']' :: ys)) by
      simp [serialize]]
    rw [bfold_cons, show bstep (.out, st) '[' = (.out, ']' :: st) from rfl, hl,
      bfold_cons, show bstep (.out, ']' :: st) ']' = (.out, st) from rfl]
  · intro m hm st ys
    rw [show serialize (.obj m) ++ ys = '{' :: (serializeMembers m ++ ('}' :: ys)) by
      simp [serialize]]
    rw [bfold_cons, show bstep (.out, st) '{' = (.out, '}' :: st) from rfl, hm,
      bfold_cons, show bstep (.out, '}' :: st) '}' = (.out, st) from rfl]
  · intro st ys
    simp [serializeElems]
  · intro x xs hx hxs st ys
    cases xs with
    | nil =>
      rw [show serializeElems [x] = serialize x by simp [serializeElems]]
      exact hx st ys
    | cons y ys' =>
      rw [show serializeElems (x :: y :: ys') ++ ys =
          serialize x ++ (',' :: (serializeElems (y :: ys') ++ ys)) by
        simp [serializeElems]]
      rw [hx, bfold_cons, bstep_out_other st ',' (by decide), hxs]
  · intro st ys
    simp [serializeMembers]
  · intro k v xs hv hxs st ys
    have hmember : ∀ st zs,
        bfold (.out, st) (('"' :: escStr k ++ '"' :: ':' :: serialize v) ++ zs) =
          bfold (.out, st) zs := by
      intro st zs
      rw [show ('"' :: escStr k ++ '"' :: ':' :: serialize v) ++ zs =
          '"' :: (escStr k ++ ('"' :: ':' :: (serialize v ++ zs))) by simp]
      rw [bfold_cons, show bstep (.out, st) '"' = (.inStr, st) from rfl, bfold_inStr_escStr,
        bfold_cons, show bstep (.inStr, st) '"' = (.out, st) from rfl,
        bfold_cons, bstep_out_other st ':' (by decide), hv]
    cases xs with
    | nil =>
      rw [show serializeMembers [(k, v)] = '"' :: escStr k ++ '"' :: ':' :: serialize v by
        simp [serializeMembers]]
      exact hmember st ys
    | cons p ps =>
      rw [show serializeMembers ((k, v) :: p :: ps) ++ ys =
          ('"' :: escStr k ++ '"' :: ':' :: serialize v) ++
            (',' :: (serializeMembers (p :: ps) ++ ys)) by
        simp [serializeMembers]]
      rw [hmember, bfold_cons, bstep_out_other st ',' (by decide), hxs]

/-! Stage 4: repair is the identity on serializer output. -/

theorem rstrip_eq_self (l : List Char) (c : Char) (hc : l.getLast? = some c)
    (hws : pyWs c = false) : rstrip l = l := by
  unfold rstrip
  cases hrev : l.reverse with
  | nil =>
    rw [List.reverse_eq_nil_iff] at hrev
    subst hrev
    rfl
  | cons d t =>
    have hd : d = c := by
      have h1 : l.reverse.head? = some d := by rw [hrev]; rfl
      rw [List.head?_reverse] at h1
      rw [hc] at h1
      exact (Option.some.inj h1).symm
    subst hd
    rw [List.dropWhile_cons_of_neg (by simp [hws])]
    rw [← hrev, List.reverse_reverse]

theorem lstrip_eq_self (l : List Char) (c : Char) (cs : List Char) (hl : l = c :: cs)
    (hws : pyWs c = false) : lstrip l = l := by
  subst hl
  unfold lstrip
  rw [List.dropWhile_cons_of_neg (by simp [hws])]

/-- `_repair_truncated_json` returns already-complete serialized JSON
unchanged. -/
theorem repair_serialize (x : Json) :
    repairTruncatedJson (serialize x) = some (serialize x) := by
  obtain ⟨c, cs, hx, hjws, hpws, _, _, _⟩ := serialize_head x
  obtain ⟨e, he, hepws, hecomma⟩ := serialize_last x
  have hne : serialize x ≠ [] := by rw [hx]; simp
  have hlstrip : lstrip (serialize x) = serialize x := lstrip_eq_self _ c cs hx hpws
  have hrstrip : rstrip (serialize x) = serialize x := rstrip_eq_self _ e he hepws
  have hstrip : pyStrip (serialize x) ≠ [] := by
    unfold pyStrip
    rw [hlstrip, hrstrip]
    exact hne
  have hq : qscanLoop false (serialize x) = false := by
    rw [qscanLoop_eq_qstate]
    have := (serialize_scan_inert).1 x []
    rw [List.append_nil] at this
    rw [show stOf false = .out from rfl, this]
    simp
  have hb : bscanLoop false [] (serialize x) = [] := by
    rw [bscanLoop_eq_bfold]
    have := (serialize_bfold_inert).1 x [] []
    rw [List.append_nil] at this
    rw [show stOf false = .out from rfl, this]
    rfl
  unfold repairTruncatedJson
  rw [if_neg (by simp [hne, hstrip])]
  simp only [hrstrip, hq, Bool.false_eq_true, if_false, hb, he]
  rw [if_neg (by simp [hecomma])]
  simp

theorem skipWs_cons_of (c : Char) (t : List Char) (h : jsonWs c = false) :
    skipWs (c :: t) = c :: t := by
  simp [skipWs, List.dropWhile_cons, h]

theorem parseVal_digitHead (f : Nat) (c : Char) (t : List Char) (hd : c.isDigit = true) :
    parseVal (f + 1) (c :: t) =
      some (.num ((parseDigitsAux (c :: t) 0).1 : Int), (parseDigitsAux (c :: t) 0).2) := by
  have hws : jsonWs c = false := (digit_not_special c hd).1
  have hne : ∀ d : Char, d.isDigit = false → c ≠ d := by
    intro d hdd he
    subst he
    rw [hd] at hdd
    cases hdd
  simp only [parseVal, skipWs_cons_of c t hws]
  split
  · rename_i heq
    injection heq with h1 _
    exact absurd h1 (hne 'n' (by decide))
  · rename_i heq
    injection heq with h1 _
    exact absurd h1 (hne 't' (by decide))
  · rename_i heq
    injection heq with h1 _
    exact absurd h1 (hne 'f' (by decide))
  · rename_i heq
    injection heq with h1 _
    exact absurd h1 (hne '"' (by decide))
  · rename_i heq
    injection heq with h1 _
    exact absurd h1 (hne '[' (by decide))
  · rename_i heq
    injection heq with h1 _
    exact absurd h1 (hne '{' (by decide))
  · rename_i heq
    injection heq with h1 _
    exact absurd h1 (hne '-' (by decide))
  · rename_i c' t' heq
    injection heq with h1 h2
    subst h1
    subst h2
    rw [if_pos hd]
  · rename_i heq
    cases heq

theorem noDigitHead_cons (c : Char) (t : List Char) (h : c.isDigit = false) :
    noDigitHead (c :: t) := by
  intro d hd
  injection hd with h1
  subst h1
  exact h

/-- The parser inverts the serializer, on values, element lists and
member lists, given sufficient fuel and a continuation that does not
start with a digit. -/
theorem parse_roundtrip :
    (∀ x : Json, ∀ f rest, fsize x ≤ f → noDigitHead rest →
      parseVal f (serialize x ++ rest) = some (x, rest)) ∧
    (∀ l : List Json, l ≠ [] → ∀ f rest, fsizeElems l ≤ f →
      parseElems f (serializeElems l ++ ']' :: rest) = some (l, rest)) ∧
    (∀ m : List (List Char × Json), m ≠ [] → ∀ f rest, fsizeMembers m ≤ f →
      parseMembers f (serializeMembers m ++ '}' :: rest) = some (m, rest)) := by
  refine jsonInd
    (fun x => ∀ f rest, fsize x ≤ f → noDigitHead rest →
      parseVal f (serialize x ++ rest) = some (x, rest))
    (fun l => l ≠ [] → ∀ f rest, fsizeElems l ≤ f →
      parseElems f (serializeElems l ++ ']' :: rest) = some (l, rest))
    (fun m => m ≠ [] → ∀ f rest, fsizeMembers m ≤ f →
      parseMembers f (serializeMembers m ++ '}' :: rest) = some (m, rest))
    ?_ ?_ ?_ ?_ ?_ ?_ ?_ ?_ ?_ ?_
  · -- null
    intro f rest hf _
    cases f with
    | zero => simp [fsize] at hf
    | succ f =>
      rw [show serialize .null ++ rest = 'n' :: 'u' :: 'l' :: 'l' :: rest from rfl]
      simp only [parseVal, skipWs_cons_of 'n' _ (by decide)]
  · -- bool
    intro b f rest hf _
    cases f with
    | zero => simp [fsize] at hf
    | succ f =>
      cases b with
      | true =>
        rw [show serialize (.bool true) ++ rest = 't' :: 'r' :: 'u' :: 'e' :: rest from rfl]
        simp only [parseVal, skipWs_cons_of 't' _ (by decide)]
      | false =>
        rw [show serialize (.bool false) ++ rest =
          'f' :: 'a' :: 'l' :: 's' :: 'e' :: rest from rfl]
        simp only [parseVal, skipWs_cons_of 'f' _ (by decide)]
  · -- num
    intro n f rest hf hnd
    cases f with
    | zero => simp [fsize] at hf
    | succ f =>
      by_cases hn : n < 0
      · rw [show serialize (.num n) ++ rest = '-' :: (digitsOf n.natAbs ++ rest) by
          simp [serialize, intChars, hn]]
        cases hd : digitsOf n.natAbs with
        | nil => exact absurd hd (digitsOf_ne_nil n.natAbs)
        | cons c cs =>
          have hcd : c.isDigit = true := digitsOf_all_digits n.natAbs c (by simp [hd])
          simp only [List.cons_append, parseVal, skipWs_cons_of '-' _ (by decide),
            hcd, if_pos]
          rw [show c :: (cs ++ rest) = digitsOf n.natAbs ++ rest by
            rw [hd, List.cons_append]]
          rw [parseDigits_digitsOf n.natAbs rest hnd]
          have hval : -((n.natAbs : Int)) = n := by omega
          show some (Json.num (-((n.natAbs : Int))), rest) = some (Json.num n, rest)
          rw [hval]
      · rw [show serialize (.num n) ++ rest = digitsOf n.toNat ++ rest by
          simp [serialize, intChars, hn]]
        cases hd : digitsOf n.toNat with
        | nil => exact absurd hd (digitsOf_ne_nil n.toNat)
        | cons c cs =>
          have hcd : c.isDigit = true := digitsOf_all_digits n.toNat c (by simp [hd])
          simp only [List.cons_append]
          rw [parseVal_digitHead f c (cs ++ rest) hcd]
          rw [show c :: (cs ++ rest) = digitsOf n.toNat ++ rest by
            rw [hd, List.cons_append]]
          rw [parseDigits_digitsOf n.toNat rest hnd]
          have hval : ((n.toNat : Int)) = n := Int.toNat_of_nonneg (by omega)
          show some (Json.num ((n.toNat : Int)), rest) = some (Json.num n, rest)
          rw [hval]
  · -- str
    intro s f rest hf _
    cases f with
    | zero => simp [fsize] at hf
    | succ f =>
      rw [show serialize (.str s) ++ rest = '"' :: (escStr s ++ '"' :: rest) by
        simp [serialize]]
      simp only [parseVal, skipWs_cons_of '"' _ (by decide)]
      rw [parseStringBody_escStr s rest]
      rfl
  · -- arr
    intro l hl f rest hf _
    cases f with
    | zero => simp [fsize] at hf
    | succ f =>
      have hfe : fsizeElems l ≤ f := by
        simp [fsize] at hf
        omega
      cases l with
      | nil =>
        rw [show serialize (.arr []) ++ rest = '[' :: ']' :: rest by
          simp [serialize, serializeElems]]
        simp only [parseVal, skipWs_cons_of '[' _ (by decide),
          skipWs_cons_of ']' _ (by decide)]
      | cons x xs =>
        obtain ⟨c, t, hxser, hcws, hcpws, hcrb, _, _⟩ := serialize_head x
        have hA : ∃ t', serializeElems (x :: xs) ++ ']' :: rest = c :: t' := by
          cases xs with
          | nil => exact ⟨t ++ ']' :: rest, by simp [serializeElems, hxser]⟩
          | cons y ys =>
            exact ⟨t ++ ',' :: serializeElems (y :: ys) ++ ']' :: rest, by
              simp [serializeElems, hxser]⟩
        obtain ⟨t', hA⟩ := hA
        rw [show serialize (.arr (x :: xs)) ++ rest =
          '[' :: (serializeElems (x :: xs) ++ ']' :: rest) by simp [serialize]]
        simp only [parseVal, skipWs_cons_of '[' _ (by decide)]
        rw [hA, skipWs_cons_of c t' hcws]
        rw [show (match c :: t' with
            | ']' :: rest' => some (Json.arr [], rest')
            | _ => (parseElems f (c :: t')).map (fun p => (Json.arr p.1, p.2))) =
          (parseElems f (c :: t')).map (fun p => (Json.arr p.1, p.2)) by
            split
            · rename_i heq
              injection heq with h1 _
              exact absurd h1 hcrb
            · rfl]
        rw [← hA, hl (by simp) f rest hfe]
        rfl
  · -- obj
    intro m hm f rest hf _
    cases f with
    | zero => simp [fsize] at hf
    | succ f =>
      have hfm : fsizeMembers m ≤ f := by
        simp [fsize] at hf
        omega
      cases m with
      | nil =>
        rw [show serialize (.obj []) ++ rest = '{' :: '}' :: rest by
          simp [serialize, serializeMembers]]
        simp only [parseVal, skipWs_cons_of '{' _ (by decide),
          skipWs_cons_of '}' _ (by decide)]
      | cons p ps =>
        obtain ⟨k, v⟩ := p
        rw [show serialize (.obj ((k, v) :: ps)) ++ rest =
          '{' :: (serializeMembers ((k, v) :: ps) ++ '}' :: rest) by simp [serialize]]
        have hA : ∃ t', serializeMembers ((k, v) :: ps) ++ '}' :: rest = '"' :: t' := by
          cases ps with
          | nil => exact ⟨escStr k ++ '"' :: ':' :: serialize v ++ '}' :: rest, by
              simp [serializeMembers]⟩
          | cons q qs =>
            exact ⟨escStr k ++ '"' :: ':' :: serialize v ++
              ',' :: serializeMembers (q :: qs) ++ '}' :: rest, by
              simp [serializeMembers]⟩
        obtain ⟨t', hA⟩ := hA
        simp only [parseVal, skipWs_cons_of '{' _ (by decide)]
        rw [hA, skipWs_cons_of '"' t' (by decide)]
        rw [show (match '"' :: t' with
            | '}' :: rest' => some (Json.obj [], rest')
            | _ => (parseMembers f ('"' :: t')).map (fun p => (Json.obj p.1, p.2))) =
          (parseMembers f ('"' :: t')).map (fun p => (Json.obj p.1, p.2)) from by
            rfl]
        rw [← hA, hm (by simp) f rest hfm]
        rfl
  · -- elems nil
    intro h
    exact absurd rfl h
  · -- elems cons
    intro x xs hx hxs _ f rest hf
    have hf1 : 1 ≤ f := by
      simp [fsizeElems] at hf
      omega
    obtain ⟨f', rfl⟩ : ∃ f', f = f' + 1 := ⟨f - 1, by omega⟩
    have hfx : fsize x ≤ f' := by
      simp [fsizeElems] at hf
      omega
    have hfxs : fsizeElems xs ≤ f' := by
      simp [fsizeElems] at hf
      omega
    cases xs with
    | nil =>
      rw [show serializeElems [x] ++ ']' :: rest = serialize x ++ ']' :: rest by
        simp [serializeElems]]
      simp only [parseElems]
      rw [hx f' (']' :: rest) hfx (noDigitHead_cons ']' rest (by decide))]
      simp only [skipWs_cons_of ']' rest (by decide)]
    | cons y ys =>
      rw [show serializeElems (x :: y :: ys) ++ ']' :: rest =
        serialize x ++ ',' :: (serializeElems (y :: ys) ++ ']' :: rest) by
        simp [serializeElems]]
      simp only [parseElems]
      rw [hx f' _ hfx (noDigitHead_cons ',' _ (by decide))]
      simp only [skipWs_cons_of ',' _ (by decide)]
      rw [hxs (by simp) f' rest hfxs]
      rfl
  · -- members nil
    intro h
    exact absurd rfl h
  · -- members cons
    intro k v xs hv hxs _ f rest hf
    have hf1 : 1 ≤ f := by
      simp [fsizeMembers] at hf
      omega
    obtain ⟨f', rfl⟩ : ∃ f', f = f' + 1 := ⟨f - 1, by omega⟩
    have hfv : fsize v ≤ f' := by
      simp [fsizeMembers] at hf
      omega
    have hfxs : fsizeMembers xs ≤ f' := by
      simp [fsizeMembers] at hf
      omega
    cases xs with
    | nil =>
      rw [show serializeMembers [(k, v)] ++ '}' :: rest =
        '"' :: (escStr k ++ '"' :: (':' :: (serialize v ++ '}' :: rest))) by
        simp [serializeMembers]]
      simp only [parseMembers, skipWs_cons_of '"' _ (by decide)]
      rw [parseStringBody_escStr k (':' :: (serialize v ++ '}' :: rest))]
      simp only [skipWs_cons_of ':' _ (by decide)]
      rw [hv f' _ hfv (noDigitHead_cons '}' rest (by decide))]
      simp only [skipWs_cons_of '}' rest (by decide)]
    | cons q qs =>
      rw [show serializeMembers ((k, v) :: q :: qs) ++ '}' :: rest =
        '"' :: (escStr k ++ '"' :: (':' :: (serialize v ++
          ',' :: (serializeMembers (q :: qs) ++ '}' :: rest)))) by
        simp [serializeMembers]]
      simp only [parseMembers, skipWs_cons_of '"' _ (by decide)]
      rw [parseStringBody_escStr k _]
      simp only [skipWs_cons_of ':' _ (by decide)]
      rw [hv f' _ hfv (noDigitHead_cons ',' _ (by decide))]
      simp only [skipWs_cons_of ',' _ (by decide)]
      rw [hxs (by simp) f' rest hfxs]
      rfl

/-- Fuel bound: the serialization is at least as long as the fuel the
parser needs (up to the one extra unit `parseJson` adds). -/
theorem fsize_le :
    (∀ x : Json, fsize x ≤ (serialize x).length) ∧
    (∀ l : List Json, fsizeElems l ≤ 1 + (serializeElems l).length) ∧
    (∀ m : List (List Char × Json), fsizeMembers m ≤ 1 + (serializeMembers m).length) := by
  refine jsonInd
    (fun x => fsize x ≤ (serialize x).length)
    (fun l => fsizeElems l ≤ 1 + (serializeElems l).length)
    (fun m => fsizeMembers m ≤ 1 + (serializeMembers m).length)
    ?_ ?_ ?_ ?_ ?_ ?_ ?_ ?_ ?_ ?_
  · simp [fsize, serialize]
  · intro b
    cases b <;> simp [fsize, serialize]
  · intro n
    have h1 : digitsOf n.natAbs ≠ [] := digitsOf_ne_nil n.natAbs
    have h2 : digitsOf n.toNat ≠ [] := digitsOf_ne_nil n.toNat
    have h1' : 1 ≤ (digitsOf n.natAbs).length := by
      cases hd : digitsOf n.natAbs with
      | nil => exact absurd hd h1
      | cons c cs => simp
    have h2' : 1 ≤ (digitsOf n.toNat).length := by
      cases hd : digitsOf n.toNat with
      | nil => exact absurd hd h2
      | cons c cs => simp
    by_cases hn : n < 0
    · rw [show serialize (.num n) = '-' :: digitsOf n.natAbs by simp [serialize, intChars, hn]]
      simp [fsize]
    · rw [show serialize (.num n) = digitsOf n.toNat by simp [serialize, intChars, hn]]
      simp [fsize]
      omega
  · intro s
    rw [show serialize (.str s) = '"' :: escStr s ++ ['"'] by simp [serialize]]
    simp [fsize]
  · intro l hl
    rw [show serialize (.arr l) = '[' :: serializeElems l ++ [']'] by simp [serialize],
      show fsize (.arr l) = 1 + fsizeElems l by rw [fsize]]
    simp only [List.length_cons, List.length_append, List.length_singleton]
    omega
  · intro m hm
    rw [show serialize (.obj m) = '{' :: serializeMembers m ++ ['}'] by simp [serialize],
      show fsize (.obj m) = 1 + fsizeMembers m by rw [fsize]]
    simp only [List.length_cons, List.length_append, List.length_singleton]
    omega
  · simp [fsizeElems, serializeElems]
  · intro x xs hx hxs
    cases xs with
    | nil =>
      rw [show serializeElems [x] = serialize x by simp [serializeElems]]
      have heq : fsizeElems [x] = 1 + max (fsize x) 0 := by
        simp [fsizeElems]
      rw [heq]
      omega
    | cons y ys =>
      rw [show serializeElems (x :: y :: ys) =
        serialize x ++ ',' :: serializeElems (y :: ys) by simp [serializeElems]]
      have heq : fsizeElems (x :: y :: ys) =
          1 + max (fsize x) (fsizeElems (y :: ys)) := by
        rw [fsizeElems]
      rw [heq]
      simp only [List.length_append, List.length_cons]
      omega
  · simp [fsizeMembers, serializeMembers]
  · intro k v xs hv hxs
    cases xs with
    | nil =>
      rw [show serializeMembers [(k, v)] =
        '"' :: escStr k ++ '"' :: ':' :: serialize v by simp [serializeMembers]]
      have heq : fsizeMembers [(k, v)] = 1 + max (fsize v) 0 := by
        simp [fsizeMembers]
      rw [heq]
      simp only [List.length_append, List.length_cons]
      omega
    | cons q qs =>
      rw [show serializeMembers ((k, v) :: q :: qs) =
        ('"' :: escStr k ++ '"' :: ':' :: serialize v) ++
          ',' :: serializeMembers (q :: qs) by simp [serializeMembers]]
      have heq : fsizeMembers ((k, v) :: q :: qs) =
          1 + max (fsize v) (fsizeMembers (q :: qs)) := by
        rw [fsizeMembers]
      rw [heq]
      simp only [List.length_append, List.length_cons]
      omega

/-- C6: for every JSON value `x`, repairing the serialization of `x` returns
it unchanged (already-valid JSON loses no information), and parsing the
repaired text yields a value equal to `x`:
`parse(_repair_truncated_json(serialize(x))) == x`. -/
theorem C6_repair_roundtrip (x : Json) :
    (repairTruncatedJson (serialize x)).bind parseJson = some x ∧
    repairTruncatedJson (serialize x) = some (serialize x) ∧
    parseJson (serialize x) = some x := by
  have hrep : repairTruncatedJson (serialize x) = some (serialize x) :=
    repair_serialize x
  have hparse : parseJson (serialize x) = some x := by
    have h := parse_roundtrip.1 x ((serialize x).length + 1) []
      (Nat.le_succ_of_le (fsize_le.1 x)) (by intro c hc; simp at hc)
    rw [List.append_nil] at h
    unfold parseJson
    rw [h]
    simp [skipWs]
  exact ⟨by rw [hrep]; simpa using hparse, hrep, hparse⟩

end CDS
